import Mathlib
/-!
Verification of the istok_car_tracker bot core against its specification.

The development shallowly embeds the program's pure logic:
* text utilities (`normalize_text`, `parse_int_safe`) and shift parsing
  from `models.py`,
* the read retry/backoff loop and cache-invalidation behaviour of the
  write operations from `sheets.py`,
* the raw-sheet row mapping (`get_drivers_for_shift`,
  `clear_employee_driver`) from `sheets.py`,
* a record-level state machine for the assignment operations driven by
  the conversation handlers (`passengers_input`, `delete_input`,
  weekly confirmation) from `handlers.py` and `sheets.py`.

Machine strings are modelled as Lean `String`s; Python `str.strip()`
is modelled over the ASCII whitespace characters, and `str.lower()`
over ASCII and the Cyrillic block actually used by the program.
-/


/-! ## Python-style text utilities (models.py / Python builtins) -/

/-- Model of Python `str.lower` on one character: ASCII letters and the
Cyrillic uppercase block U+0410–U+042F (plus Ё U+0401), which covers every
character the program compares. -/
def pyLowerChar (c : Char) : Char :=
  let n := c.toNat
  if 65 ≤ n ∧ n ≤ 90 then Char.ofNat (n + 32)
  else if 0x410 ≤ n ∧ n ≤ 0x42F then Char.ofNat (n + 0x20)
  else if n = 0x401 then Char.ofNat 0x451
  else c

/-- Model of Python's default `str.strip` whitespace test (ASCII part). -/
def pyIsSpace (c : Char) : Bool :=
  c = ' ' || c = '\t' || c = '\n' || c = '\r' || c.toNat = 11 || c.toNat = 12

/-- `str.strip()` on a character list: drop whitespace at both ends. -/
def pyStripChars (l : List Char) : List Char :=
  ((l.dropWhile pyIsSpace).reverse.dropWhile pyIsSpace).reverse

/-- `str.strip()` on a string. -/
def pyStripS (s : String) : String := String.mk (pyStripChars s.data)

/-- `str.lower()` on a string. -/
def pyLowerS (s : String) : String := String.mk (s.data.map pyLowerChar)

/-- `normalize_text` from models.py: `(text or "").strip().lower()`. -/
def normalize_text (s : String) : String := pyLowerS (pyStripS s)

/-- Contiguous-substring test, Python's `needle in hay`. -/
def containsSub (needle : List Char) : List Char → Bool
  | [] => needle.isEmpty
  | c :: rest => needle.isPrefixOf (c :: rest) || containsSub needle rest

/-- Value of a nonempty all-digit character list; `none` otherwise. -/
def digitsVal (ds : List Char) : Option Nat :=
  if ds.isEmpty then none
  else ds.foldl
    (fun acc c => acc.bind (fun v => if c.isDigit then some (v * 10 + (c.toNat - 48)) else none))
    (some 0)

/-- Python `int(s)` on an already-stripped character list (sign + digits). -/
def pyParseInt (l : List Char) : Option Int :=
  match l with
  | '+' :: rest => (digitsVal rest).map (fun n => (n : Int))
  | '-' :: rest => (digitsVal rest).map (fun n => -(n : Int))
  | _ => (digitsVal l).map (fun n => (n : Int))

/-- `parse_int_safe` from models.py: strip, empty → default, parse failure → default. -/
def parse_int_safe (value : String) (default : Int) : Int :=
  let s := pyStripChars value.data
  if s.isEmpty then default
  else
    match pyParseInt s with
    | some n => n
    | none => default

/-! ## ShiftType (models.py) -/

inductive ShiftType
  | day
  | night
  | unknown
deriving DecidableEq, BEq, Repr

/-- `ShiftType.from_string` from models.py: falsy input → UNKNOWN, otherwise
strip+lower and test substring containment, night tokens first. -/
def ShiftType.from_string (value : String) : ShiftType :=
  if value = "" then .unknown
  else
    let v := (pyStripChars value.data).map pyLowerChar
    if containsSub ("night".data) v || containsSub ("ноч".data) v then .night
    else if containsSub ("day".data) v || containsSub ("дн".data) v then .day
    else .unknown

/-- `ShiftType.to_display` from models.py. -/
def ShiftType.to_display : ShiftType → String
  | .day => "Day"
  | .night => "Night"
  | .unknown => ""

/-- The normalized character list `from_string` matches against. -/
def normChars (s : String) : List Char := (pyStripChars s.data).map pyLowerChar

/-- The input contains a night-indicating token after normalization. -/
def hasNightTok (s : String) : Bool :=
  containsSub ("night".data) (normChars s) || containsSub ("ноч".data) (normChars s)

/-- The input contains a day-indicating token after normalization. -/
def hasDayTok (s : String) : Bool :=
  containsSub ("day".data) (normChars s) || containsSub ("дн".data) (normChars s)

/-! ## Read retry / backoff (sheets.py `_fetch_with_retry`, config.py) -/

/-- `BotConfig.MAX_RETRIES` from config.py. -/
def MAX_RETRIES : Nat := 3

/-- `BotConfig.RETRY_DELAY_SECONDS` from config.py. -/
def RETRY_DELAY_SECONDS : Nat := 2

/-- Outcome of one backend read attempt (`ws.get_all_values()` inside the
retry loop): data, an `APIError` with a numeric code, a
`SpreadsheetNotFound`, or any other exception. -/
inductive FetchOut
  | ok (data : List (List String))
  | apiError (code : Int)
  | notFound
  | otherErr
deriving DecidableEq, Repr

/-- Result of `_fetch_with_retry`: the data, or a raised `SheetError`
(either the immediate spreadsheet-not-found conversion or the
after-exhaustion error). -/
inductive FetchRes
  | ok (data : List (List String))
  | errNotFound
  | errExhausted
deriving DecidableEq, Repr

/-- An attempt outcome the loop retries on (APIError or generic exception). -/
def FetchOut.retryable : FetchOut → Bool
  | .apiError _ => true
  | .otherErr => true
  | _ => false

/-- The body of `_fetch_with_retry`'s `for attempt in range(MAX_RETRIES)`
loop, with per-attempt backend outcomes given by `o`.  Returns the result
together with the list of `time.sleep` delays performed, in order.  The
fuel argument counts the remaining loop iterations. -/
def fetchAux (m d : Nat) (o : Nat → FetchOut) : Nat → Nat → FetchRes × List Nat
  | _, 0 => (.errExhausted, [])
  | attempt, fuel + 1 =>
    match o attempt with
    | .ok dd => (.ok dd, [])
    | .notFound => (.errNotFound, [])
    | .apiError code =>
      if attempt + 1 < m then
        let wait := if code = 429 then min 60 (10 * 2 ^ attempt) else d * 2 ^ attempt
        let r := fetchAux m d o (attempt + 1) fuel
        (r.1, wait :: r.2)
      else (.errExhausted, [])
    | .otherErr =>
      if attempt + 1 < m then
        let r := fetchAux m d o (attempt + 1) fuel
        (r.1, d * 2 ^ attempt :: r.2)
      else (.errExhausted, [])

/-- `_fetch_with_retry` from sheets.py: run the loop from attempt 0 with
`MAX_RETRIES` iterations available. -/
def fetch_with_retry (m d : Nat) (o : Nat → FetchOut) : FetchRes × List Nat :=
  fetchAux m d o 0 m

/-! ## Cache invalidation on writes (sheets.py)

One logical table's data cache is tracked by the generation of the backend
data it holds.  `_get_sheet_data` serves a present cache entry and fills an
absent one from the backend; `_invalidate_cache` evicts the entry.  A
backend write either succeeds, fails after partially applying (e.g. a
protected-cell rejection inside a `batch_update`), or fails without
applying; either failure raises in the Python code. -/

/-- A single table's cached view: `cacheGen = some g` means the in-memory
cache holds the backend data as of generation `g`; `backendGen` counts
writes applied at the backend. -/
structure TableView where
  cacheGen : Option Nat
  backendGen : Nat
deriving DecidableEq, Repr

/-- `_get_sheet_data`: serve the cache when an entry is present, otherwise
fetch from the backend and fill the cache.  Returns the generation of the
data served. -/
def sheet_data_read (t : TableView) : Nat × TableView :=
  match t.cacheGen with
  | some g => (g, t)
  | none => (t.backendGen, { t with cacheGen := some t.backendGen })

/-- `_invalidate_cache`: evict the table's cache entry. -/
def invalidate_cache (t : TableView) : TableView := { t with cacheGen := none }

/-- Outcome of one backend write call (`update` / `append_row` /
`batch_update`). -/
inductive WriteOut
  | okW
  | failPartial
  | failNone
deriving DecidableEq, Repr

/-- Effect of a backend write call on the backend data. -/
def backend_write (t : TableView) : WriteOut → TableView
  | .okW => { t with backendGen := t.backendGen + 1 }
  | .failPartial => { t with backendGen := t.backendGen + 1 }
  | .failNone => t

/-- Result of `update_employee_driver`: the returned dict's success flag. -/
inductive UEDRes
  | success
  | failure
deriving DecidableEq, Repr

/-- Result of a write operation that raises `SheetError` on failure. -/
inductive WRes
  | ok
  | raised
deriving DecidableEq, Repr

/-- `update_employee_driver` (employees-table cache): reads the table to
locate the row (filling the cache), performs the `batch_update` (or the
`append_row` for a missing employee — same control flow), and invalidates
the cache only on the success path; the exception handler returns a
failure dict without invalidating. -/
def update_employee_driver_cache (t0 : TableView) (w : WriteOut) : UEDRes × TableView :=
  let t1 := (sheet_data_read t0).2
  match w with
  | .okW => (.success, invalidate_cache (backend_write t1 .okW))
  | .failPartial => (.failure, backend_write t1 .failPartial)
  | .failNone => (.failure, t1)

/-- `upsert_driver` (drivers-table cache): reads the table to find the
existing row, writes (`update` or `append_row`), and invalidates on the
success path; an exception propagates as `SheetError` without
invalidating. -/
def upsert_driver_cache (t0 : TableView) (w : WriteOut) : WRes × TableView :=
  let t1 := (sheet_data_read t0).2
  match w with
  | .okW => (.ok, invalidate_cache (backend_write t1 .okW))
  | .failPartial => (.raised, backend_write t1 .failPartial)
  | .failNone => (.raised, t1)

/-- `upsert_driver_passengers` (drivers_passengers-table cache): same
control flow as `upsert_driver`. -/
def upsert_driver_passengers_cache (t0 : TableView) (w : WriteOut) : WRes × TableView :=
  let t1 := (sheet_data_read t0).2
  match w with
  | .okW => (.ok, invalidate_cache (backend_write t1 .okW))
  | .failPartial => (.raised, backend_write t1 .failPartial)
  | .failNone => (.raised, t1)

/-- `clear_employee_driver` (employees-table cache): reads the table; when
the employee is missing or the only-if-owned guard fails it returns with no
write and no invalidation; otherwise it writes and invalidates on success,
and raises without invalidating on failure. -/
def clear_employee_driver_cache (t0 : TableView) (writes : Bool) (w : WriteOut) :
    WRes × TableView :=
  let t1 := (sheet_data_read t0).2
  if writes then
    match w with
    | .okW => (.ok, invalidate_cache (backend_write t1 .okW))
    | .failPartial => (.raised, backend_write t1 .failPartial)
    | .failNone => (.raised, t1)
  else (.ok, t1)

/-- `clear_driver_passengers` (drivers_passengers-table cache): reads the
table; a missing row returns with no write; otherwise the `batch_update`
is followed by invalidation on success, and raises without invalidating on
failure. -/
def clear_driver_passengers_cache (t0 : TableView) (rowFound : Bool) (w : WriteOut) :
    WRes × TableView :=
  let t1 := (sheet_data_read t0).2
  if rowFound then
    match w with
    | .okW => (.ok, invalidate_cache (backend_write t1 .okW))
    | .failPartial => (.raised, backend_write t1 .failPartial)
    | .failNone => (.raised, t1)
  else (.ok, t1)

/-! ## Raw sheet rows and row-dict mapping (models.py / sheets.py)

A sheet is a list of rows of cell strings, the first row being the
headers.  `row_dict = \x7bheaders[j]: row[j] for j in range(len(headers))
if j < len(row)\x7d` keeps the last value for duplicate headers, and
`dict.get(key, dflt)` supplies the default for missing keys. -/

/-- Python `row_dict.get(key)` as an `Option`: last binding wins. -/
def pyRowGetOpt (headers row : List String) (key : String) : Option String :=
  (headers.zip row).foldl (fun acc p => if p.1 = key then some p.2 else acc) none

/-- Python `row_dict.get(key, "")`. -/
def pyRowGet (headers row : List String) (key : String) : String :=
  (pyRowGetOpt headers row key).getD ""

/-- Model of Python `str.upper` on one character (inverse of `pyLowerChar`). -/
def pyUpperChar (c : Char) : Char :=
  let n := c.toNat
  if 97 ≤ n ∧ n ≤ 122 then Char.ofNat (n - 32)
  else if 0x430 ≤ n ∧ n ≤ 0x44F then Char.ofNat (n - 0x20)
  else if n = 0x451 then Char.ofNat 0x401
  else c

/-- `str.upper()` on a string. -/
def pyUpperS (s : String) : String := String.mk (s.data.map pyUpperChar)

/-- Python `a or b` on strings: `b` when `a` is empty. -/
def pyOrS (a b : String) : String := if a = "" then b else a

/-- Driver data model (models.py). -/
structure Driver where
  name : String
  tg_id : Int
  phone : String
  shift : ShiftType
  car : String
  plates : String
  is_active : Bool
  row_index : Option Nat
deriving DecidableEq, Repr

/-- `Driver.from_dict` from models.py, applied to the row dict built from
`headers` and `row`. -/
def Driver.from_dict (headers row : List String) (rowIndex : Nat) : Driver :=
  { name := pyStripS (pyRowGet headers row "Name")
    tg_id := parse_int_safe (pyRowGet headers row "telegramID") 0
    phone := pyStripS (pyOrS (pyRowGet headers row "Phone Number")
      (pyRowGet headers row "Phone number"))
    shift := ShiftType.from_string (pyRowGet headers row "Shift")
    car := pyStripS (pyRowGet headers row "Car")
    plates := pyStripS (pyRowGet headers row "Plates")
    is_active := pyUpperS ((pyRowGetOpt headers row "isActive").getD "TRUE") = "TRUE"
    row_index := some rowIndex }

/-- Employee data model (models.py). -/
structure Employee where
  name : String
  phone : String
  shift : ShiftType
  rides_with : String
  driver_tgid : Option Int
  row_index : Option Nat
deriving DecidableEq, Repr

/-- `Employee.from_dict` from models.py: the driver reference is
`parse_int_safe(..., default=0) or None`, so 0 and unparsable cells map to
`none`. -/
def Employee.from_dict (headers row : List String) (rowIndex : Nat) : Employee :=
  { name := pyStripS (pyRowGet headers row "Employee")
    phone := pyStripS (pyOrS (pyRowGet headers row "Phone Number")
      (pyRowGet headers row "PhoneNumber"))
    shift := ShiftType.from_string (pyRowGet headers row "Shift")
    rides_with := pyStripS (pyRowGet headers row "Rides with")
    driver_tgid :=
      (fun v => if v = 0 then none else some v)
        (parse_int_safe (pyRowGet headers row "telegramID") 0)
    row_index := some rowIndex }

/-! ## get_drivers_for_shift (sheets.py) -/

/-- The row scan of `get_drivers_for_shift`: parse every data row and keep
drivers with a truthy (nonzero) telegram id and the requested shift.
`i` is the 1-based sheet row number (`enumerate(values[1:], start=2)`). -/
def gdfsAux (headers : List String) (shift : ShiftType) :
    List (List String) → Nat → List Driver
  | [], _ => []
  | row :: rest, i =>
    let d := Driver.from_dict headers row i
    if d.tg_id ≠ 0 ∧ d.shift = shift then d :: gdfsAux headers shift rest (i + 1)
    else gdfsAux headers shift rest (i + 1)

/-- `get_drivers_for_shift` from sheets.py. -/
def get_drivers_for_shift (values : List (List String)) (shift : ShiftType) :
    List Driver :=
  if values.length < 2 then []
  else gdfsAux (values.headD []) shift (values.drop 1) 2

/-- A two-row drivers sheet whose only data row is a deactivated
(`isActive = FALSE`) day-shift driver. -/
def inactiveDriverSheet : List (List String) :=
  [["Name", "telegramID", "Phone Number", "Shift", "Car", "Plates", "isActive"],
   ["Ann", "7", "", "Day", "car", "pl", "FALSE"]]

/-! ## get_employee_by_name and clear_employee_driver on raw rows (sheets.py) -/

/-- The row scan of `get_employee_by_name`: first data row whose first cell
matches the normalized name; `i` is the 1-based sheet row number. -/
def gebnAux (headers : List String) (nameNorm : String) :
    List (List String) → Nat → Option Employee
  | [], _ => none
  | row :: rest, i =>
    if row ≠ [] ∧ normalize_text (row.headD "") = nameNorm then
      some (Employee.from_dict headers row i)
    else gebnAux headers nameNorm rest (i + 1)

/-- `get_employee_by_name` from sheets.py. -/
def get_employee_by_name (values : List (List String)) (name : String) :
    Option Employee :=
  if values.length < 2 then none
  else gebnAux (values.headD []) (normalize_text name) (values.drop 1) 2

/-- Write one cell of a sheet grid: rows shorter than the target column are
padded with empty cells, as the backend addresses cells by grid position. -/
def setCell (values : List (List String)) (i j : Nat) (v : String) :
    List (List String) :=
  values.set i
    (((values.getD i []) ++ List.replicate (j + 1 - (values.getD i []).length) "").set j v)

/-- Read one cell of a sheet grid (missing cells read as empty). -/
def cellOf (values : List (List String)) (i j : Nat) : String :=
  (values.getD i []).getD j ""

/-- `clear_employee_driver` from sheets.py on the raw employees sheet:
locate the employee by normalized name; missing employee or a failed
only-if-owned guard returns without writing; otherwise blank the cells
`D{row}` and `E{row}` (columns 3 and 4, 0-based). -/
def clear_employee_driver_sheet (values : List (List String)) (name : String)
    (only_if : Option Int) : List (List String) :=
  match get_employee_by_name values name with
  | none => values
  | some emp =>
    match emp.row_index with
    | none => values
    | some r =>
      if only_if.isSome ∧ emp.driver_tgid ≠ only_if then values
      else setCell (setCell values (r - 1) 3 "") (r - 1) 4 ""

/-- A concrete two-row employees sheet: Bob rides with Ann (driver id 7). -/
def c6Sheet : List (List String) :=
  [["Employee", "Phone Number", "Shift", "Rides with", "telegramID"],
   ["Bob", "1", "Day", "Ann", "7"]]

/-- The parse of `c6Sheet`'s data row. -/
def c6Emp : Employee := Employee.from_dict (c6Sheet.headD []) (c6Sheet.getD 1 []) 2

/-! ## Record-level domain state (models.py / sheets.py / handlers.py)

For the assignment operations the three sheets are modelled at the
granularity of their parsed rows, under the documented column layout of
config.py (`EMPLOYEES_COLS`, `DRIVERS_PASSENGERS_COLS`): an employees row
carries name, shift, rides-with label (column D) and driver reference
(column E, `parse_int_safe(...) or None`); a drivers_passengers row
carries the driver snapshot and the passenger slots E–H.  The cell writes
of the code translate to field updates of the corresponding parsed
record. -/

/-- A parsed employees-sheet row as the assignment operations see it. -/
structure EmpR where
  name : String
  shift : ShiftType
  rides_with : String
  driver_tgid : Option Int
deriving DecidableEq, Repr

/-- A parsed drivers-sheet row (the fields the assignment flow uses). -/
structure DriverR where
  name : String
  tg_id : Int
  phone : String
  shift : ShiftType
deriving DecidableEq, Repr

/-- A parsed drivers_passengers-sheet row. -/
structure DPR where
  driver_name : String
  driver_tgid : Int
  phone : String
  shift : ShiftType
  passengers : List String
deriving DecidableEq, Repr

/-- The mutable state of the two tables written by the assignment flow. -/
structure AState where
  employees : List EmpR
  dps : List DPR
deriving DecidableEq, Repr

/-- `get_driver`: first drivers row with the requested telegram id. -/
def get_driver (drivers : List DriverR) (tg : Int) : Option DriverR :=
  drivers.find? (fun d => d.tg_id == tg)

/-- The employee dictionary of `validate_passengers`:
`\x7bnormalize_text(e.name): e for e in all_employees if e.name\x7d` — later
rows override earlier ones for equal normalized names. -/
def empMapLookup (emps : List EmpR) (key : String) : Option EmpR :=
  emps.foldl
    (fun acc e => if e.name ≠ "" ∧ normalize_text e.name = key then some e else acc)
    none

/-- `get_employee_by_name` at record level: first row whose normalized
name matches. -/
def empFindIdx (emps : List EmpR) (key : String) : Option Nat :=
  emps.findIdx? (fun e => normalize_text e.name == key)

/-- The "not found" rejection text (no fuzzy suggestions available). -/
def msgNotFound (name : String) : String :=
  "Пассажир '" ++ name ++ "' не найден в employees. Проверьте написание."

/-- The "not found" rejection text carrying fuzzy suggestions. -/
def msgNotFoundSuggest (name : String) (similar : List String) : String :=
  "Пассажир '" ++ name ++ "' не найден.\n\nВозможно, вы имели в виду:\n"
    ++ String.intercalate "\n" (similar.map (fun s => "• " ++ s))

/-- The shift-mismatch rejection text. -/
def msgShiftMismatch (name : String) (es ds : ShiftType) : String :=
  "⚠️ Смена пассажира '" ++ name ++ "' (" ++ es.to_display
    ++ ") не совпадает с вашей (" ++ ds.to_display ++ ")"

/-- The already-claimed rejection text. -/
def msgAlreadyClaimed (name : String) : String :=
  "⛔ Пассажир '" ++ name ++ "' уже закреплён за другим водителем."

/-- The shift-compatibility test of `validate_passengers`: both shifts
known and different. -/
def shiftMismatchB (ds es : ShiftType) : Bool :=
  ds != .unknown && es != .unknown && ds != es

/-- The authoritative exclusivity test: `employee.driver_tgid` is truthy
(a nonzero reference) and differs from the requesting driver. -/
def tgidClaimed (ref : Option Int) (tg : Int) : Bool :=
  match ref with
  | some x => x != 0 && x != tg
  | none => false

/-- The secondary rides-with test: the label is truthy, differs from
`str(driver_tgid)`, the driver row resolves, and the label differs from
the driver's name. -/
def ridesConflict (drivers : List DriverR) (rides : String) (tg : Int) : Bool :=
  rides != "" && normalize_text rides != normalize_text (toString tg)
    && (match get_driver drivers tg with
        | some dr => normalize_text rides != normalize_text dr.name
        | none => false)

/-- One candidate's validation inside `validate_passengers`.  `simFn`
models `find_similar_employee_names` (difflib fuzzy matching, outside the
spec's algorithmic scope) as an oracle supplying the suggestion list. -/
def checkOne (simFn : String → List String) (drivers : List DriverR)
    (emps : List EmpR) (tg : Int) (ds : ShiftType) (name : String) :
    Except String EmpR :=
  match empMapLookup emps (normalize_text name) with
  | none =>
    match simFn name with
    | [] => .error (msgNotFound name)
    | similar => .error (msgNotFoundSuggest name similar)
  | some employee =>
    if shiftMismatchB ds employee.shift then
      .error (msgShiftMismatch name employee.shift ds)
    else if tgidClaimed employee.driver_tgid tg then
      .error (msgAlreadyClaimed name)
    else if ridesConflict drivers employee.rides_with tg then
      .error (msgAlreadyClaimed name)
    else .ok employee

/-- The candidate loop of `validate_passengers`, preserving input order in
both result lists. -/
def validateAux (simFn : String → List String) (drivers : List DriverR)
    (emps : List EmpR) (tg : Int) (ds : ShiftType) :
    List String → List EmpR × List String
  | [] => ([], [])
  | name :: rest =>
    let r := validateAux simFn drivers emps tg ds rest
    match checkOne simFn drivers emps tg ds name with
    | .ok e => (e :: r.1, r.2)
    | .error m => (r.1, m :: r.2)

/-- `validate_passengers` from sheets.py: a pure partition of the
candidate list into accepted employees and rejection reasons; it performs
no write. -/
def validate_passengers (simFn : String → List String) (drivers : List DriverR)
    (emps : List EmpR) (tg : Int) (ds : ShiftType) (names : List String) :
    List EmpR × List String :=
  validateAux simFn drivers emps tg ds names

/-! ## Handler-level assignment operations (handlers.py, sheets.py)

`passengers_input`, `delete_input` and the weekly clear-and-cascade are
modelled as state transformers over the record-level tables.  Backend
write failures abort later steps in the Python code; the model takes the
all-success path of each operation. -/

/-- `BotConfig.MAX_PASSENGERS` from config.py. -/
def MAX_PASSENGERS : Nat := 4

/-- Normalized-name deduplication with a seen-set, preserving first
occurrences (the `seen` loop of `passengers_input` and its merge loop). -/
def dedupeNorm (seen : List String) : List String → List String
  | [] => []
  | n :: rest =>
    if normalize_text n ∈ seen then dedupeNorm seen rest
    else n :: dedupeNorm (normalize_text n :: seen) rest

/-- The cleaned input tokens of `passengers_input`: each raw token
stripped, empties dropped. -/
def cleanNames (raw : List String) : List String :=
  (raw.map pyStripS).filter (fun x => x ≠ "")

/-- The deduplicated candidate list `unique_names` of `passengers_input`. -/
def uniqueNamesOf (raw : List String) : List String :=
  dedupeNorm [] (cleanNames raw)

/-- `get_driver_passengers`: first drivers_passengers row with the id. -/
def get_dp (dps : List DPR) (tg : Int) : Option DPR :=
  dps.find? (fun dp => dp.driver_tgid == tg)

/-- The row `_prepare_driver_passengers_row` actually persists: the first
four passenger slots are written (padded with blanks) and a later parse
drops blank slots. -/
def dpStored (dp : DPR) : DPR :=
  { dp with passengers := (dp.passengers.take 4).filter (fun p => p ≠ "") }

/-- `upsert_driver_passengers`: overwrite the first row with the same
driver id, else append. -/
def upsert_dp (dp : DPR) : List DPR → List DPR
  | [] => [dpStored dp]
  | r :: rest =>
    if r.driver_tgid = dp.driver_tgid then dpStored dp :: rest
    else r :: upsert_dp dp rest

/-- `clear_driver_passengers`: blank the passenger slots of the first row
with the driver id, returning the passengers that were present. -/
def clear_dp (tg : Int) : List DPR → List DPR × List String
  | [] => ([], [])
  | r :: rest =>
    if r.driver_tgid = tg then ({ r with passengers := [] } :: rest, r.passengers)
    else
      let q := clear_dp tg rest
      (r :: q.1, q.2)

/-- `remove_passenger`: drop the first passenger of the driver's row whose
normalized name matches, then upsert the modified row. -/
def remove_passenger (dps : List DPR) (tg : Int) (name : String) :
    List DPR × Bool :=
  match get_dp dps tg with
  | none => (dps, false)
  | some dp =>
    match dp.passengers.findIdx?
        (fun p => normalize_text p == normalize_text name) with
    | none => (dps, false)
    | some j => (upsert_dp { dp with passengers := dp.passengers.eraseIdx j } dps, true)

/-- The employees row appended by `update_employee_driver` for a missing
employee: `[employee_name, "", "", driver_name, str(driver_tgid)]`, as a
later parse sees it. -/
def newEmpRow (ename dname : String) (dtg : Int) : EmpR :=
  { name := pyStripS ename, shift := .unknown, rides_with := pyStripS dname,
    driver_tgid := if dtg = 0 then none else some dtg }

/-- `update_employee_driver` at record level: write the rides-with label
(cell D) and driver reference (cell E, `str(driver_tgid)`) of the first
row whose normalized name matches, else append a new row. -/
def update_employee_driver (ename dname : String) (dtg : Int) :
    List EmpR → List EmpR
  | [] => [newEmpRow ename dname dtg]
  | e :: rest =>
    if normalize_text e.name = normalize_text ename then
      { e with
        rides_with := pyStripS dname,
        driver_tgid := if dtg = 0 then none else some dtg } :: rest
    else e :: update_employee_driver ename dname dtg rest

/-- `clear_employee_driver` at record level: blank cells D and E of the
first row whose normalized name matches, but only when the only-if-owned
guard passes. -/
def clear_employee_driver (name : String) (only_if : Option Int) :
    List EmpR → List EmpR
  | [] => []
  | e :: rest =>
    if normalize_text e.name = normalize_text name then
      if only_if.isSome ∧ e.driver_tgid ≠ only_if then e :: rest
      else { e with rides_with := "", driver_tgid := none } :: rest
    else e :: clear_employee_driver name only_if rest

/-- The existing passenger list `passengers_input` reads before merging. -/
def existingOf (s : AState) (tg : Int) : List String :=
  ((get_dp s.dps tg).map (fun dp => dp.passengers)).getD []

/-- The merge of `passengers_input`: existing passengers followed by the
new names not already present under normalized comparison. -/
def mergedList (existing newNames : List String) : List String :=
  existing ++ dedupeNorm (existing.map normalize_text) newNames

/-- The merged list a `passengers_input` turn would commit. -/
def mergedOf (s : AState) (tg : Int) (raw : List String) : List String :=
  mergedList (existingOf s tg) (uniqueNamesOf raw)

/-- One `passengers_input` turn for the driver with id `tg` and raw input
tokens `raw`: parse and dedupe the names, reject empty or overlong input,
validate, abort on any rejection, merge with the existing row, reject an
overfull merge, then upsert the drivers_passengers row, update each
candidate's employee row, and finally the driver's own employee row
(self-assignment). -/
def assignStep (drivers : List DriverR) (simFn : String → List String)
    (s : AState) (tg : Int) (raw : List String) : AState :=
  match get_driver drivers tg with
  | none => s
  | some driver =>
    if uniqueNamesOf raw = [] then s
    else if MAX_PASSENGERS < (uniqueNamesOf raw).length then s
    else if (validate_passengers simFn drivers s.employees driver.tg_id driver.shift
        (uniqueNamesOf raw)).2 ≠ [] then s
    else if MAX_PASSENGERS < (mergedOf s tg raw).length then s
    else
      { employees := update_employee_driver driver.name driver.name driver.tg_id
          ((uniqueNamesOf raw).foldl
            (fun acc n => update_employee_driver n driver.name driver.tg_id acc)
            s.employees),
        dps := upsert_dp
          ⟨driver.name, driver.tg_id, driver.phone, driver.shift, mergedOf s tg raw⟩
          s.dps }

/-- One `delete_input` turn: strip the input, remove the passenger from
the driver's row, and clear the employee back-reference only if still
owned by this driver. -/
def removeStep (s : AState) (tg : Int) (name0 : String) : AState :=
  let name := pyStripS name0
  if name = "" then s
  else
    let r := remove_passenger s.dps tg name
    if r.2 then
      { employees := clear_employee_driver name (some tg) s.employees, dps := r.1 }
    else s

/-- The clear-and-cascade shared by the weekly timeout and the negative
reply: clear the driver's passenger row, then clear each removed
passenger's employee back-reference under the only-if-owned guard. -/
def clearStep (s : AState) (tg : Int) : AState :=
  let r := clear_dp tg s.dps
  { employees := r.2.foldl (fun es p => clear_employee_driver p (some tg) es)
      s.employees,
    dps := r.1 }

/-- The operations of the assignment protocol. -/
inductive AOp
  | assign (tg : Int) (raw : List String)
  | remove (tg : Int) (name : String)
  | clear (tg : Int)

/-- Apply one operation. -/
def applyOp (drivers : List DriverR) (simFn : String → List String)
    (s : AState) : AOp → AState
  | .assign tg raw => assignStep drivers simFn s tg raw
  | .remove tg name => removeStep s tg name
  | .clear tg => clearStep s tg

/-- Apply a sequence of operations. -/
def applyOps (drivers : List DriverR) (simFn : String → List String)
    (s : AState) (ops : List AOp) : AState :=
  ops.foldl (applyOp drivers simFn) s

/-! ## Weekly confirmation handlers (handlers.py, persistence.py) -/

/-- An event delivered to one driver's confirmation window. -/
inductive WEvent
  | timeout
  | reply (text : String)

/-- `weekly_timeout`: if the pending-confirmation entry was already
removed, do nothing; otherwise remove it and clear-and-cascade.  The
boolean result reports whether the clear was performed. -/
def weekly_timeout_step (tg : Int) (w : Bool × AState) : (Bool × AState) × Bool :=
  if w.1 then ((false, clearStep w.2 tg), true) else (w, false)

/-- `weekly_answer_handler`: if there is no pending-confirmation entry,
the message is ignored; otherwise the entry is removed and the timer
cancelled, then an affirmative reply keeps the data, a negative reply
performs the clear-and-cascade, and anything else changes no table. -/
def weekly_answer_step (tg : Int) (text : String) (w : Bool × AState) :
    (Bool × AState) × Bool :=
  if w.1 then
    if pyLowerS (pyStripS text) = "нет" then ((false, clearStep w.2 tg), true)
    else ((false, w.2), false)
  else (w, false)

/-- Run a sequence of events against one confirmation window, counting
performed clears. -/
def weekly_run (tg : Int) : Bool × AState → List WEvent → (Bool × AState) × Nat
  | w, [] => (w, 0)
  | w, e :: rest =>
    let r := match e with
      | .timeout => weekly_timeout_step tg w
      | .reply t => weekly_answer_step tg t w
    let q := weekly_run tg r.1 rest
    (q.1, (if r.2 then 1 else 0) + q.2)

/-! ## Lemmas about the employee-table operations -/

/-- Normalized employee names of a table. -/
def normNamesE (emps : List EmpR) : List String :=
  emps.map (fun e => normalize_text e.name)

/-- Normalized driver names of the drivers table. -/
def dNorms (drivers : List DriverR) : List String :=
  drivers.map (fun d => normalize_text d.name)

/-- Normalized passenger names of one drivers_passengers row. -/
def paxNorms (dp : DPR) : List String :=
  dp.passengers.map normalize_text

/-! ## The assignment-protocol invariant -/

/-- The inductive invariant of the assignment protocol: well-formed rows
(unique normalized employee names, unique driver ids, nonzero ids,
per-row duplicate-free nonempty passenger slots within the four-slot
layout), the exclusivity property for every passenger name that is not a
driver's own name, and the employee back-reference consistency for those
names. -/
structure AInv (drivers : List DriverR) (s : AState) : Prop where
  empNodup : (normNamesE s.employees).Nodup
  dpNodup : (s.dps.map (fun r => r.driver_tgid)).Nodup
  dpTgNZ : ∀ dp ∈ s.dps, dp.driver_tgid ≠ 0
  paxNodup : ∀ dp ∈ s.dps, (paxNorms dp).Nodup
  paxLen : ∀ dp ∈ s.dps, dp.passengers.length ≤ 4
  paxNE : ∀ dp ∈ s.dps, ∀ p ∈ dp.passengers, p ≠ ""
  excl : ∀ dp1 ∈ s.dps, ∀ p1 ∈ dp1.passengers,
    normalize_text p1 ∉ dNorms drivers →
    ∀ dp2 ∈ s.dps, normalize_text p1 ∈ paxNorms dp2 → dp1 = dp2
  backref : ∀ dp ∈ s.dps, ∀ p ∈ dp.passengers,
    normalize_text p ∉ dNorms drivers →
    ∃ e ∈ s.employees, normalize_text e.name = normalize_text p
      ∧ e.driver_tgid = some dp.driver_tgid

/-- Drivers table of the first C1 counterexample trace: Eve (id 222) and
Alice (id 111), both day shift; Alice is both a driver and an employee. -/
def cxDrivers1 : List DriverR := [⟨"Eve", 222, "", .day⟩, ⟨"Alice", 111, "", .day⟩]

/-- Initial state of the first trace: employee Alice rides with Eve
(driver-reference 222), employee Bob is unassigned, and Eve's passenger
row lists Alice. -/
def cxState1 : AState :=
  ⟨[⟨"Alice", .day, "Eve", some 222⟩, ⟨"Bob", .day, "", none⟩],
   [⟨"Eve", 222, "", .day, ["Alice"]⟩]⟩

/-- Final state of the first trace: Alice assigns Bob (her self-assignment
overwrites her own employee driver-reference to 111), then assigns
herself. -/
def cxFinal1 : AState :=
  applyOps cxDrivers1 (fun _ => []) cxState1
    [.assign 111 ["Bob"], .assign 111 ["Alice"]]

/-- Drivers table of the second C1 counterexample trace. -/
def cxDrivers2 : List DriverR := [⟨"Dan", 11, "", .day⟩, ⟨"Erin", 22, "", .day⟩]

/-- Initial state of the second trace: two employee rows share the
normalized name "bob"; no assignments exist. -/
def cxState2 : AState :=
  ⟨[⟨"Bob", .day, "", none⟩, ⟨"Bob", .day, "", none⟩], []⟩

/-- Final state of the second trace: Dan assigns Bob (the write lands on
the first Bob row, while validation reads the last), then Erin assigns
Bob. -/
def cxFinal2 : AState :=
  applyOps cxDrivers2 (fun _ => []) cxState2 [.assign 11 ["Bob"], .assign 22 ["Bob"]]

/-! ## Theorems -/

/-- C8: `ShiftType.from_string` lowercases/trims its input and decides by
substring containment: a night token ("night"/"ноч") yields Night with
priority over day tokens ("day"/"дн"), a day token without a night token
yields Day, and anything else — including the empty string — yields Unknown. -/
theorem C8_shift_parsing (s : String) :
    (ShiftType.from_string s = .night ↔ hasNightTok s = true)
    ∧ (ShiftType.from_string s = .day ↔ (hasDayTok s = true ∧ hasNightTok s = false))
    ∧ (ShiftType.from_string s = .unknown ↔ (hasNightTok s = false ∧ hasDayTok s = false))
    ∧ ShiftType.from_string "" = .unknown := by
  refine ⟨?_, ?_, ?_, by decide⟩ <;>
  · simp only [ShiftType.from_string, hasNightTok, hasDayTok, normChars]
    by_cases hs : s = ""
    · subst hs; decide
    · simp only [if_neg hs]
      by_cases h1 : (containsSub ("night".data) ((pyStripChars s.data).map pyLowerChar)
          || containsSub ("ноч".data) ((pyStripChars s.data).map pyLowerChar)) = true
      · simp [h1]
      · by_cases h2 : (containsSub ("day".data) ((pyStripChars s.data).map pyLowerChar)
            || containsSub ("дн".data) ((pyStripChars s.data).map pyLowerChar)) = true
        · simp [h1, h2]
        · simp [h1, h2]

theorem fetchAux_len (m d : Nat) (o : Nat → FetchOut) :
    ∀ fuel attempt, (fetchAux m d o attempt fuel).2.length ≤ m - (attempt + 1) := by
  intro fuel
  induction fuel with
  | zero => intro attempt; simp [fetchAux]
  | succ n ih =>
    intro attempt
    cases h : o attempt with
    | ok dd => simp [fetchAux, h]
    | notFound => simp [fetchAux, h]
    | apiError code =>
      by_cases hg : attempt + 1 < m
      · have := ih (attempt + 1)
        simp only [fetchAux, h, if_pos hg, List.length_cons]
        omega
      · simp [fetchAux, h, if_neg hg]
    | otherErr =>
      by_cases hg : attempt + 1 < m
      · have := ih (attempt + 1)
        simp only [fetchAux, h, if_pos hg, List.length_cons]
        omega
      · simp [fetchAux, h, if_neg hg]

theorem fetchAux_ok (m d : Nat) (o : Nat → FetchOut) :
    ∀ fuel attempt dd, (fetchAux m d o attempt fuel).1 = .ok dd →
      ∃ k, attempt ≤ k ∧ k < attempt + fuel ∧ o k = .ok dd := by
  intro fuel
  induction fuel with
  | zero => intro attempt dd h; simp [fetchAux] at h
  | succ n ih =>
    intro attempt dd h
    cases ho : o attempt with
    | ok d2 =>
      simp [fetchAux, ho] at h
      exact ⟨attempt, le_refl _, by omega, by rw [ho, h]⟩
    | notFound => simp [fetchAux, ho] at h
    | apiError code =>
      by_cases hg : attempt + 1 < m
      · simp only [fetchAux, ho, if_pos hg] at h
        obtain ⟨k, hk1, hk2, hk3⟩ := ih (attempt + 1) dd h
        exact ⟨k, by omega, by omega, hk3⟩
      · simp [fetchAux, ho, if_neg hg] at h
    | otherErr =>
      by_cases hg : attempt + 1 < m
      · simp only [fetchAux, ho, if_pos hg] at h
        obtain ⟨k, hk1, hk2, hk3⟩ := ih (attempt + 1) dd h
        exact ⟨k, by omega, by omega, hk3⟩
      · simp [fetchAux, ho, if_neg hg] at h

theorem fetchAux_exhaust (m d : Nat) (o : Nat → FetchOut) :
    ∀ fuel attempt, (∀ k, attempt ≤ k → k < attempt + fuel → (o k).retryable = true) →
      (fetchAux m d o attempt fuel).1 = .errExhausted := by
  intro fuel
  induction fuel with
  | zero => intro attempt _; simp [fetchAux]
  | succ n ih =>
    intro attempt hall
    have h0 := hall attempt (le_refl _) (by omega)
    cases ho : o attempt with
    | ok dd => rw [ho] at h0; simp [FetchOut.retryable] at h0
    | notFound => rw [ho] at h0; simp [FetchOut.retryable] at h0
    | apiError code =>
      by_cases hg : attempt + 1 < m
      · simp only [fetchAux, ho, if_pos hg]
        exact ih (attempt + 1) (fun k hk1 hk2 => hall k (by omega) (by omega))
      · simp [fetchAux, ho, if_neg hg]
    | otherErr =>
      by_cases hg : attempt + 1 < m
      · simp only [fetchAux, ho, if_pos hg]
        exact ih (attempt + 1) (fun k hk1 hk2 => hall k (by omega) (by omega))
      · simp [fetchAux, ho, if_neg hg]

theorem fetchAux_notFound (m d : Nat) (o : Nat → FetchOut) :
    ∀ fuel attempt k, attempt ≤ k → k < attempt + fuel → k < m →
      (∀ j, attempt ≤ j → j < k → (o j).retryable = true) → o k = .notFound →
      (fetchAux m d o attempt fuel).1 = .errNotFound
        ∧ (fetchAux m d o attempt fuel).2.length = k - attempt := by
  intro fuel
  induction fuel with
  | zero => intro attempt k h1 h2; omega
  | succ n ih =>
    intro attempt k h1 h2 hm hpre hk
    by_cases heq : attempt = k
    · subst heq
      simp [fetchAux, hk]
    · have hlt : attempt < k := by omega
      have h0 := hpre attempt (le_refl _) hlt
      have hg : attempt + 1 < m := by omega
      cases ho : o attempt with
      | ok dd => rw [ho] at h0; simp [FetchOut.retryable] at h0
      | notFound => rw [ho] at h0; simp [FetchOut.retryable] at h0
      | apiError code =>
        have := ih (attempt + 1) k (by omega) (by omega) hm
          (fun j hj1 hj2 => hpre j (by omega) hj2) hk
        simp only [fetchAux, ho, if_pos hg, List.length_cons]
        exact ⟨this.1, by omega⟩
      | otherErr =>
        have := ih (attempt + 1) k (by omega) (by omega) hm
          (fun j hj1 hj2 => hpre j (by omega) hj2) hk
        simp only [fetchAux, ho, if_pos hg, List.length_cons]
        exact ⟨this.1, by omega⟩

theorem fetchAux_sched (m d : Nat) (o : Nat → FetchOut) :
    ∀ fuel attempt k, attempt ≤ k → k < attempt + fuel → k + 1 < m →
      (∀ j, attempt ≤ j → j < k → (o j).retryable = true) →
      ((∀ code, o k = .apiError code →
          (fetchAux m d o attempt fuel).2.get? (k - attempt)
            = some (if code = 429 then min 60 (10 * 2 ^ k) else d * 2 ^ k))
        ∧ (o k = .otherErr →
          (fetchAux m d o attempt fuel).2.get? (k - attempt) = some (d * 2 ^ k))) := by
  intro fuel
  induction fuel with
  | zero => intro attempt k h1 h2; omega
  | succ n ih =>
    intro attempt k h1 h2 hm hpre
    by_cases heq : attempt = k
    · subst heq
      constructor
      · intro code hk
        simp [fetchAux, hk, if_pos hm]
      · intro hk
        simp [fetchAux, hk, if_pos hm]
    · have hlt : attempt < k := by omega
      have h0 := hpre attempt (le_refl _) hlt
      have hg : attempt + 1 < m := by omega
      have hrec := ih (attempt + 1) k (by omega) (by omega) hm
        (fun j hj1 hj2 => hpre j (by omega) hj2)
      have hidx : k - attempt = (k - (attempt + 1)) + 1 := by omega
      cases ho : o attempt with
      | ok dd => rw [ho] at h0; simp [FetchOut.retryable] at h0
      | notFound => rw [ho] at h0; simp [FetchOut.retryable] at h0
      | apiError code =>
        constructor
        · intro c hk
          simp only [fetchAux, ho, if_pos hg, hidx, List.get?_cons_succ]
          exact hrec.1 c hk
        · intro hk
          simp only [fetchAux, ho, if_pos hg, hidx, List.get?_cons_succ]
          exact hrec.2 hk
      | otherErr =>
        constructor
        · intro c hk
          simp only [fetchAux, ho, if_pos hg, hidx, List.get?_cons_succ]
          exact hrec.1 c hk
        · intro hk
          simp only [fetchAux, ho, if_pos hg, hidx, List.get?_cons_succ]
          exact hrec.2 hk

/-- C7: the retry policy of `_fetch_with_retry`.  Backend attempts are
bounded by `MAX_RETRIES` (so at most `MAX_RETRIES - 1` sleeps); a
rate-limit (HTTP 429) attempt `k` that is not the last sleeps
`min 60 (10 * 2^k)` seconds (10s, 20s, 40s, capped at 60s); any other
`APIError` or generic exception sleeps `RETRY_DELAY_SECONDS * 2^k`;
exhausting all attempts on retryable errors raises `SheetError`; a
`SpreadsheetNotFound` raises `SheetError` immediately, performing no
further attempt and no delay for that attempt.  Concretely, with the
configured `MAX_RETRIES = 3`, an always-rate-limited backend yields the
delay trace `[10, 20]` and a `SheetError`. -/
theorem C7_retry_backoff (m d : Nat) (o : Nat → FetchOut) :
    (fetch_with_retry m d o).2.length ≤ m - 1
    ∧ (∀ dd, (fetch_with_retry m d o).1 = .ok dd → ∃ k, k < m ∧ o k = .ok dd)
    ∧ ((∀ k, k < m → (o k).retryable = true) →
        (fetch_with_retry m d o).1 = .errExhausted)
    ∧ (∀ k, k < m → (∀ j, j < k → (o j).retryable = true) → o k = .notFound →
        (fetch_with_retry m d o).1 = .errNotFound
          ∧ (fetch_with_retry m d o).2.length = k)
    ∧ (∀ k, k + 1 < m → (∀ j, j < k → (o j).retryable = true) →
        (o k = .apiError 429 →
          (fetch_with_retry m d o).2.get? k = some (min 60 (10 * 2 ^ k)))
        ∧ (∀ c, o k = .apiError c → c ≠ 429 →
          (fetch_with_retry m d o).2.get? k = some (d * 2 ^ k))
        ∧ (o k = .otherErr →
          (fetch_with_retry m d o).2.get? k = some (d * 2 ^ k)))
    ∧ fetch_with_retry MAX_RETRIES RETRY_DELAY_SECONDS (fun _ => .apiError 429)
        = (.errExhausted, [10, 20]) := by
  refine ⟨?_, ?_, ?_, ?_, ?_, by decide⟩
  · have := fetchAux_len m d o m 0
    simpa [fetch_with_retry] using this
  · intro dd h
    obtain ⟨k, _, hk2, hk3⟩ := fetchAux_ok m d o m 0 dd h
    exact ⟨k, by omega, hk3⟩
  · intro hall
    exact fetchAux_exhaust m d o m 0 (fun k _ hk => hall k (by omega))
  · intro k hk hpre hnf
    have := fetchAux_notFound m d o m 0 k (by omega) (by omega) hk
      (fun j _ hj => hpre j hj) hnf
    simpa [fetch_with_retry] using this
  · intro k hk hpre
    have := fetchAux_sched m d o m 0 k (by omega) (by omega) hk
      (fun j _ hj => hpre j hj)
    refine ⟨?_, ?_, ?_⟩
    · intro h429
      have := this.1 429 h429
      simpa [fetch_with_retry] using this
    · intro c hc hne
      have := this.1 c hc
      simp only [if_neg hne] at this
      simpa [fetch_with_retry] using this
    · intro hoth
      have := this.2 hoth
      simpa [fetch_with_retry] using this

/-- Witness for C7: a backend that reports spreadsheet-not-found on the very
first attempt fails immediately with no delay. -/
theorem C7_retry_backoff_witness :
    (fetch_with_retry 3 2 (fun _ => FetchOut.notFound)).1 = .errNotFound
      ∧ (fetch_with_retry 3 2 (fun _ => FetchOut.notFound)).2.length = 0 :=
  (C7_retry_backoff 3 2 (fun _ => FetchOut.notFound)).2.2.2.1 0 (by omega)
    (fun j hj => absurd hj (by omega)) rfl

/-- C3 counterexample: the claim fails on the failure path.  Start with a
warm cache (generation 0 in cache, backend at generation 0); run
`update_employee_driver` whose `batch_update` fails after a partial write.
The function returns a failure dict, the backend is at generation 1, but
the cache entry is NOT invalidated, and the next read through the same
store serves the pre-write generation 0. -/
theorem C3_counterexample :
    (update_employee_driver_cache ⟨some 0, 0⟩ .failPartial).1 = .failure
    ∧ (update_employee_driver_cache ⟨some 0, 0⟩ .failPartial).2.backendGen = 1
    ∧ (update_employee_driver_cache ⟨some 0, 0⟩ .failPartial).2.cacheGen = some 0
    ∧ (sheet_data_read (update_employee_driver_cache ⟨some 0, 0⟩ .failPartial).2).1 = 0 := by
  decide

/-- C3 amended: every write operation of the store invalidates the written
table's cache entry before returning on every path whose backend write
succeeds; consequently a read through the same store instance immediately
after a successful write serves the post-write backend data.  (On a failed
backend write the operations return or raise without invalidating.) -/
theorem C3_write_invalidation (t : TableView) (w : WriteOut) :
    ((update_employee_driver_cache t w).1 = .success →
      (update_employee_driver_cache t w).2.cacheGen = none
        ∧ (sheet_data_read (update_employee_driver_cache t w).2).1
            = (update_employee_driver_cache t w).2.backendGen)
    ∧ ((upsert_driver_cache t w).1 = .ok →
      (upsert_driver_cache t w).2.cacheGen = none
        ∧ (sheet_data_read (upsert_driver_cache t w).2).1
            = (upsert_driver_cache t w).2.backendGen)
    ∧ ((upsert_driver_passengers_cache t w).1 = .ok →
      (upsert_driver_passengers_cache t w).2.cacheGen = none
        ∧ (sheet_data_read (upsert_driver_passengers_cache t w).2).1
            = (upsert_driver_passengers_cache t w).2.backendGen)
    ∧ ((clear_employee_driver_cache t true w).1 = .ok →
      (clear_employee_driver_cache t true w).2.cacheGen = none
        ∧ (sheet_data_read (clear_employee_driver_cache t true w).2).1
            = (clear_employee_driver_cache t true w).2.backendGen)
    ∧ ((clear_driver_passengers_cache t true w).1 = .ok →
      (clear_driver_passengers_cache t true w).2.cacheGen = none
        ∧ (sheet_data_read (clear_driver_passengers_cache t true w).2).1
            = (clear_driver_passengers_cache t true w).2.backendGen) := by
  cases w <;>
    simp [update_employee_driver_cache, upsert_driver_cache,
      upsert_driver_passengers_cache, clear_employee_driver_cache,
      clear_driver_passengers_cache, sheet_data_read, invalidate_cache,
      backend_write]

/-- Witness for C3's amended theorem at a concrete warm cache and a
successful write. -/
theorem C3_write_invalidation_witness :
    (update_employee_driver_cache ⟨some 5, 5⟩ .okW).1 = .success
    ∧ (update_employee_driver_cache ⟨some 5, 5⟩ .okW).2.cacheGen = none
    ∧ (sheet_data_read (update_employee_driver_cache ⟨some 5, 5⟩ .okW).2).1
        = (update_employee_driver_cache ⟨some 5, 5⟩ .okW).2.backendGen :=
  ⟨by decide,
    (C3_write_invalidation ⟨some 5, 5⟩ .okW).1 (by decide)⟩

theorem gdfsAux_mem (headers : List String) (shift : ShiftType) :
    ∀ rows i d, d ∈ gdfsAux headers shift rows i ↔
      ∃ k, k < rows.length ∧ d = Driver.from_dict headers (rows.getD k []) (i + k)
        ∧ d.tg_id ≠ 0 ∧ d.shift = shift := by
  intro rows
  induction rows with
  | nil => intro i d; simp [gdfsAux]
  | cons row rest ih =>
    intro i d
    constructor
    · intro hmem
      by_cases hc : (Driver.from_dict headers row i).tg_id ≠ 0
          ∧ (Driver.from_dict headers row i).shift = shift
      · rw [gdfsAux, if_pos hc] at hmem
        rcases List.mem_cons.mp hmem with heq | htail
        · exact ⟨0, by simp, by simpa using heq, by rw [heq]; exact hc.1,
            by rw [heq]; exact hc.2⟩
        · obtain ⟨k, hk1, hk2, hk3, hk4⟩ := (ih (i + 1) d).mp htail
          exact ⟨k + 1, by simpa using Nat.succ_lt_succ hk1,
            by simpa [Nat.add_assoc, Nat.add_comm 1 k] using hk2, hk3, hk4⟩
      · rw [gdfsAux, if_neg hc] at hmem
        obtain ⟨k, hk1, hk2, hk3, hk4⟩ := (ih (i + 1) d).mp hmem
        exact ⟨k + 1, by simpa using Nat.succ_lt_succ hk1,
          by simpa [Nat.add_assoc, Nat.add_comm 1 k] using hk2, hk3, hk4⟩
    · rintro ⟨k, hk1, hk2, hk3, hk4⟩
      cases k with
      | zero =>
        simp only [List.getD_cons_zero, Nat.add_zero] at hk2
        subst hk2
        rw [gdfsAux, if_pos ⟨hk3, hk4⟩]
        exact List.mem_cons_self _ _
      | succ n =>
        have htail : d ∈ gdfsAux headers shift rest (i + 1) := by
          refine (ih (i + 1) d).mpr
            ⟨n, by simp only [List.length_cons] at hk1; omega, ?_, hk3, hk4⟩
          simpa [Nat.add_assoc, Nat.add_comm 1 n] using hk2
        by_cases hc : (Driver.from_dict headers row i).tg_id ≠ 0
            ∧ (Driver.from_dict headers row i).shift = shift
        · rw [gdfsAux, if_pos hc]; exact List.mem_cons_of_mem _ htail
        · rw [gdfsAux, if_neg hc]; exact htail

/-- C9: `get_drivers_for_shift` returns exactly the data rows whose parsed
telegram id is nonzero and whose parsed shift equals the requested one;
the `isActive` flag does not occur in the filter, so a deactivated driver
is still returned (and is thus still prompted by the weekly check, which
messages every returned driver), while rows whose shift parses as Unknown
are never returned for a Day or Night query. -/
theorem C9_drivers_for_shift (values : List (List String)) (shift : ShiftType) :
    (∀ d, d ∈ get_drivers_for_shift values shift ↔
      (2 ≤ values.length ∧ ∃ k, k < values.length - 1
        ∧ d = Driver.from_dict (values.headD []) ((values.drop 1).getD k []) (2 + k)
        ∧ d.tg_id ≠ 0 ∧ d.shift = shift))
    ∧ (∀ d, d ∈ get_drivers_for_shift values shift →
        shift ≠ .unknown → d.shift ≠ .unknown)
    ∧ (get_drivers_for_shift inactiveDriverSheet .day).map (fun d => d.is_active)
        = [false] := by
  have hmain : ∀ d, d ∈ get_drivers_for_shift values shift ↔
      (2 ≤ values.length ∧ ∃ k, k < values.length - 1
        ∧ d = Driver.from_dict (values.headD []) ((values.drop 1).getD k []) (2 + k)
        ∧ d.tg_id ≠ 0 ∧ d.shift = shift) := by
    intro d
    by_cases hlen : values.length < 2
    · simp only [get_drivers_for_shift, if_pos hlen]
      simp
      omega
    · simp only [get_drivers_for_shift, if_neg hlen]
      rw [gdfsAux_mem]
      constructor
      · rintro ⟨k, hk1, hk2, hk3, hk4⟩
        exact ⟨by omega, k, by simpa [List.length_drop] using hk1, hk2, hk3, hk4⟩
      · rintro ⟨_, k, hk1, hk2, hk3, hk4⟩
        exact ⟨k, by simp [List.length_drop]; omega, hk2, hk3, hk4⟩
  refine ⟨hmain, ?_, by decide⟩
  intro d hd hsh
  obtain ⟨_, k, _, _, _, hshift⟩ := (hmain d).mp hd
  rw [hshift]
  exact hsh

/-- Witness for C9 at the concrete deactivated-driver sheet: the returned
driver is exactly the parse of the single data row. -/
theorem C9_drivers_for_shift_witness :
    Driver.from_dict (inactiveDriverSheet.headD [])
        ((inactiveDriverSheet.drop 1).getD 0 []) 2
      ∈ get_drivers_for_shift inactiveDriverSheet .day :=
  ((C9_drivers_for_shift inactiveDriverSheet .day).1 _).mpr
    ⟨by decide, 0, by decide, rfl, by decide, by decide⟩

theorem getD_set {α : Type} (l : List α) (i j : Nat) (v dflt : α) :
    (l.set i v).getD j dflt = if i = j ∧ i < l.length then v else l.getD j dflt := by
  induction l generalizing i j with
  | nil => simp [List.set]
  | cons a t ih =>
    cases i with
    | zero =>
      cases j with
      | zero => simp [List.set, List.getD]
      | succ m => simp [List.set, List.getD]
    | succ n =>
      cases j with
      | zero => simp [List.set, List.getD]
      | succ m =>
        simp only [List.set, List.getD_cons_succ, List.length_cons, ih]
        by_cases h : n = m ∧ n < t.length
        · rw [if_pos h, if_pos ⟨by omega, by omega⟩]
        · rw [if_neg h, if_neg (by omega)]

theorem getD_append_dflt {α : Type} (l : List α) (n j : Nat) (dflt : α) :
    (l ++ List.replicate n dflt).getD j dflt = l.getD j dflt := by
  induction l generalizing j with
  | nil =>
    cases j with
    | zero => cases n <;> simp [List.getD, List.replicate]
    | succ m =>
      cases n with
      | zero => simp
      | succ p =>
        simp only [List.nil_append, List.replicate, List.getD_cons_succ, List.getD_nil]
        have h0 := getD_append_dflt ([] : List α) p m dflt
        simp only [List.nil_append] at h0
        rw [h0, List.getD_nil]
  | cons a t ih =>
    cases j with
    | zero => simp [List.getD]
    | succ m => simp only [List.cons_append, List.getD_cons_succ, ih]

theorem cellOf_setCell (values : List (List String)) (i j i' j' : Nat) (v : String) :
    cellOf (setCell values i j v) i' j'
      = if i = i' ∧ j = j' ∧ i < values.length then v else cellOf values i' j' := by
  simp only [cellOf, setCell, getD_set]
  by_cases hi : i = i' ∧ i < values.length
  · obtain ⟨hi1, hi2⟩ := hi
    rw [if_pos ⟨hi1, hi2⟩]
    rw [getD_set]
    by_cases hj : j = j'
    · subst hj
      rw [if_pos ⟨rfl, by
        simp only [List.length_append, List.length_replicate]
        omega⟩]
      rw [if_pos ⟨hi1, rfl, hi2⟩]
    · rw [if_neg (by omega)]
      rw [if_neg (by
        intro hcon
        exact hj hcon.2.1)]
      rw [getD_append_dflt]
      rw [hi1]
  · rw [if_neg hi]
    rw [if_neg (by
      intro hcon
      exact hi ⟨hcon.1, hcon.2.2⟩)]

theorem gebnAux_shape (headers : List String) (nameNorm : String) :
    ∀ rows i emp, gebnAux headers nameNorm rows i = some emp →
      ∃ k, k < rows.length ∧ emp = Employee.from_dict headers (rows.getD k []) (i + k) := by
  intro rows
  induction rows with
  | nil => intro i emp h; simp [gebnAux] at h
  | cons row rest ih =>
    intro i emp h
    by_cases hc : row ≠ [] ∧ normalize_text (row.headD "") = nameNorm
    · rw [gebnAux, if_pos hc] at h
      exact ⟨0, by simp, by simpa using h.symm⟩
    · rw [gebnAux, if_neg hc] at h
      obtain ⟨k, hk1, hk2⟩ := ih (i + 1) emp h
      exact ⟨k + 1, by simp only [List.length_cons]; omega,
        by simpa [Nat.add_assoc, Nat.add_comm 1 k] using hk2⟩

/-- The row index reported by `get_employee_by_name` is the 1-based number
of an existing data row. -/
theorem get_employee_by_name_row (values : List (List String)) (name : String)
    (emp : Employee) (h : get_employee_by_name values name = some emp) :
    ∃ r, emp.row_index = some r ∧ 2 ≤ r ∧ r ≤ values.length := by
  by_cases hlen : values.length < 2
  · simp [get_employee_by_name, if_pos hlen] at h
  · rw [get_employee_by_name, if_neg hlen] at h
    obtain ⟨k, hk1, hk2⟩ := gebnAux_shape _ _ _ _ _ h
    refine ⟨2 + k, ?_, by omega, ?_⟩
    · rw [hk2]; rfl
    · simp only [List.length_drop] at hk1
      omega

/-- C6: `clear_employee_driver(name, only_if_driver_tgid = d)` leaves the
employees sheet entirely unchanged when the employee is missing or the
employee's parsed driver-reference differs from `d`; when the reference
equals `d` it blanks exactly the rides-with and driver-reference cells
(columns D and E, 0-based 3 and 4, of the employee's row) and no other
cell. -/
theorem C6_clear_guard (values : List (List String)) (name : String) (d : Int) :
    (get_employee_by_name values name = none →
      clear_employee_driver_sheet values name (some d) = values)
    ∧ (∀ emp, get_employee_by_name values name = some emp →
        emp.driver_tgid ≠ some d →
        clear_employee_driver_sheet values name (some d) = values)
    ∧ (∀ emp r, get_employee_by_name values name = some emp →
        emp.row_index = some r → emp.driver_tgid = some d →
        (clear_employee_driver_sheet values name (some d)).length = values.length
        ∧ cellOf (clear_employee_driver_sheet values name (some d)) (r - 1) 3 = ""
        ∧ cellOf (clear_employee_driver_sheet values name (some d)) (r - 1) 4 = ""
        ∧ ∀ i j, ¬(i = r - 1 ∧ (j = 3 ∨ j = 4)) →
            cellOf (clear_employee_driver_sheet values name (some d)) i j
              = cellOf values i j) := by
  refine ⟨?_, ?_, ?_⟩
  · intro h
    simp [clear_employee_driver_sheet, h]
  · intro emp hemp hne
    obtain ⟨r, hr, _, _⟩ := get_employee_by_name_row values name emp hemp
    simp only [clear_employee_driver_sheet, hemp, hr]
    rw [if_pos ⟨rfl, hne⟩]
  · intro emp r hemp hr hd
    obtain ⟨r', hr', hr2, hr3⟩ := get_employee_by_name_row values name emp hemp
    rw [hr] at hr'
    injection hr' with hrr
    subst hrr
    have heq : clear_employee_driver_sheet values name (some d)
        = setCell (setCell values (r - 1) 3 "") (r - 1) 4 "" := by
      simp only [clear_employee_driver_sheet, hemp, hr]
      rw [if_neg (by
        intro hcon
        exact hcon.2 (by rw [hd]))]
    have hrlt : r - 1 < values.length := by omega
    have hlen1 : (setCell values (r - 1) 3 "").length = values.length := by
      simp [setCell]
    refine ⟨?_, ?_, ?_, ?_⟩
    · rw [heq]; simp [setCell]
    · rw [heq, cellOf_setCell]
      rw [if_neg (by intro hcon; omega)]
      rw [cellOf_setCell]
      rw [if_pos ⟨rfl, rfl, hrlt⟩]
    · rw [heq, cellOf_setCell]
      rw [if_pos ⟨rfl, rfl, by rw [hlen1]; exact hrlt⟩]
    · intro i j hij
      rw [heq, cellOf_setCell]
      rw [if_neg (by
        intro hcon
        exact hij ⟨hcon.1.symm, Or.inr hcon.2.1.symm⟩)]
      rw [cellOf_setCell]
      rw [if_neg (by
        intro hcon
        exact hij ⟨hcon.1.symm, Or.inl hcon.2.1.symm⟩)]

/-- Witness for C6: on the concrete sheet, clearing with a non-owning
driver id leaves the sheet unchanged; clearing with the owning id blanks
column D of the data row while the name cell survives. -/
theorem C6_clear_guard_witness :
    clear_employee_driver_sheet c6Sheet "Bob" (some 9) = c6Sheet
    ∧ cellOf (clear_employee_driver_sheet c6Sheet "Bob" (some 7)) 1 3 = ""
    ∧ cellOf (clear_employee_driver_sheet c6Sheet "Bob" (some 7)) 1 0 = "Bob" := by
  refine ⟨?_, ?_, ?_⟩
  · exact (C6_clear_guard c6Sheet "Bob" 9).2.1 c6Emp (by decide) (by decide)
  · exact ((C6_clear_guard c6Sheet "Bob" 7).2.2 c6Emp 2 (by decide) (by decide)
      (by decide)).2.1
  · rw [((C6_clear_guard c6Sheet "Bob" 7).2.2 c6Emp 2 (by decide) (by decide)
      (by decide)).2.2.2 1 0 (by omega)]
    decide

theorem empMapLookup_spec (emps : List EmpR) (key : String) (e : EmpR)
    (h : empMapLookup emps key = some e) :
    e ∈ emps ∧ e.name ≠ "" ∧ normalize_text e.name = key := by
  have main : ∀ l : List EmpR, ∀ acc : Option EmpR,
      (∀ x, acc = some x → x ∈ emps ∧ x.name ≠ "" ∧ normalize_text x.name = key) →
      (∀ x, x ∈ l → x ∈ emps) →
      ∀ z, l.foldl
        (fun acc e => if e.name ≠ "" ∧ normalize_text e.name = key then some e else acc)
        acc = some z →
      z ∈ emps ∧ z.name ≠ "" ∧ normalize_text z.name = key := by
    intro l
    induction l with
    | nil => intro acc hacc _ z hz; exact hacc z hz
    | cons a t ih =>
      intro acc hacc hmem z hz
      simp only [List.foldl_cons] at hz
      by_cases hc : a.name ≠ "" ∧ normalize_text a.name = key
      · rw [if_pos hc] at hz
        refine ih (some a) ?_ (fun x hx => hmem x (List.mem_cons_of_mem _ hx)) z hz
        intro x hx
        injection hx with hx
        subst hx
        exact ⟨hmem a (List.mem_cons_self _ _), hc.1, hc.2⟩
      · rw [if_neg hc] at hz
        exact ih acc hacc (fun x hx => hmem x (List.mem_cons_of_mem _ hx)) z hz
  exact main emps none (fun x hx => by simp at hx) (fun x hx => hx) e h

theorem validateAux_len (simFn : String → List String) (drivers : List DriverR)
    (emps : List EmpR) (tg : Int) (ds : ShiftType) :
    ∀ names, (validateAux simFn drivers emps tg ds names).1.length
      + (validateAux simFn drivers emps tg ds names).2.length = names.length := by
  intro names
  induction names with
  | nil => simp [validateAux]
  | cons name rest ih =>
    simp only [validateAux]
    cases h : checkOne simFn drivers emps tg ds name <;>
      simp only [h, List.length_cons] <;> omega

theorem validateAux_err_mem (simFn : String → List String) (drivers : List DriverR)
    (emps : List EmpR) (tg : Int) (ds : ShiftType) :
    ∀ names name m, name ∈ names → checkOne simFn drivers emps tg ds name = .error m →
      m ∈ (validateAux simFn drivers emps tg ds names).2 := by
  intro names
  induction names with
  | nil => intro name m h; simp at h
  | cons hd rest ih =>
    intro name m hmem hchk
    rcases List.mem_cons.mp hmem with heq | htail
    · subst heq
      simp only [validateAux, hchk]
      exact List.mem_cons_self _ _
    · have := ih name m htail hchk
      simp only [validateAux]
      cases h : checkOne simFn drivers emps tg ds hd
      · simp only [h]
        exact List.mem_cons_of_mem _ this
      · simp only [h]
        exact this

theorem validateAux_acc_mem (simFn : String → List String) (drivers : List DriverR)
    (emps : List EmpR) (tg : Int) (ds : ShiftType) :
    ∀ names a, a ∈ (validateAux simFn drivers emps tg ds names).1 →
      ∃ nm, nm ∈ names ∧ checkOne simFn drivers emps tg ds nm = .ok a := by
  intro names
  induction names with
  | nil => intro a h; simp [validateAux] at h
  | cons hd rest ih =>
    intro a hmem
    simp only [validateAux] at hmem
    cases h : checkOne simFn drivers emps tg ds hd with
    | error m =>
      rw [h] at hmem
      obtain ⟨nm, hnm1, hnm2⟩ := ih a hmem
      exact ⟨nm, List.mem_cons_of_mem _ hnm1, hnm2⟩
    | ok e =>
      rw [h] at hmem
      rcases List.mem_cons.mp hmem with heq | htail
      · exact ⟨hd, List.mem_cons_self _ _, by rw [h, heq]⟩
      · obtain ⟨nm, hnm1, hnm2⟩ := ih a htail
        exact ⟨nm, List.mem_cons_of_mem _ hnm1, hnm2⟩

/-- C5: `validate_passengers` processes every candidate — each contributes
exactly one accepted employee or exactly one rejection reason, so the two
result lengths sum to the number of candidates — and a candidate resolving
to a Night-shift employee under a Day-shift driver is rejected with the
shift-mismatch reason and excluded from the accepted list.  The embedded
`validate_passengers` is a pure function of the tables: it performs no
write. -/
theorem C5_validate_partition (simFn : String → List String)
    (drivers : List DriverR) (emps : List EmpR) (tg : Int) (ds : ShiftType)
    (names : List String) :
    ((validate_passengers simFn drivers emps tg ds names).1.length
      + (validate_passengers simFn drivers emps tg ds names).2.length
      = names.length)
    ∧ (∀ name, name ∈ names → ∀ e,
        empMapLookup emps (normalize_text name) = some e →
        ds = .day → e.shift = .night →
        msgShiftMismatch name .night .day
            ∈ (validate_passengers simFn drivers emps tg ds names).2
        ∧ ∀ a, a ∈ (validate_passengers simFn drivers emps tg ds names).1 →
            normalize_text a.name ≠ normalize_text name) := by
  constructor
  · exact validateAux_len simFn drivers emps tg ds names
  · intro name hname e hlook hds hes
    have hcond : shiftMismatchB ds e.shift = true := by rw [hds, hes]; decide
    have hchk : checkOne simFn drivers emps tg ds name
        = .error (msgShiftMismatch name .night .day) := by
      simp only [checkOne, hlook, hes, hds]
      rw [if_pos (show shiftMismatchB ShiftType.day ShiftType.night = true by decide)]
    refine ⟨validateAux_err_mem simFn drivers emps tg ds names name _ hname hchk, ?_⟩
    intro a hacc heqn
    obtain ⟨nm, hnm1, hnm2⟩ := validateAux_acc_mem simFn drivers emps tg ds names a hacc
    have hlook2 : empMapLookup emps (normalize_text nm) = some a := by
      cases hl : empMapLookup emps (normalize_text nm) with
      | none =>
        simp only [checkOne, hl] at hnm2
        cases hsim : simFn nm <;> simp [hsim] at hnm2
      | some emp2 =>
        simp only [checkOne, hl] at hnm2
        by_cases h1 : shiftMismatchB ds emp2.shift = true
        · simp [h1] at hnm2
        · rw [if_neg h1] at hnm2
          by_cases h2 : tgidClaimed emp2.driver_tgid tg = true
          · simp [h2] at hnm2
          · rw [if_neg h2] at hnm2
            by_cases h3 : ridesConflict drivers emp2.rides_with tg = true
            · simp [h3] at hnm2
            · rw [if_neg h3] at hnm2
              injection hnm2 with h4
              rw [h4]
    have hkey := (empMapLookup_spec emps (normalize_text nm) a hlook2).2.2
    have hsame : empMapLookup emps (normalize_text name) = some a := by
      have h5 : normalize_text nm = normalize_text name := by rw [← hkey, heqn]
      rw [← h5]
      exact hlook2
    rw [hlook] at hsame
    injection hsame with hsame
    have hcond2 : shiftMismatchB ds a.shift = true := by
      rw [← hsame, hes, hds]; decide
    have hfire : checkOne simFn drivers emps tg ds nm
        = .error (msgShiftMismatch nm a.shift ds) := by
      simp only [checkOne, hlook2, if_pos hcond2]
    rw [hnm2] at hfire
    exact absurd hfire (by simp)

/-- Witness for C5: one Night-shift employee offered to a Day-shift driver
is rejected with the shift-mismatch reason and the accepted list is
empty. -/
theorem C5_validate_partition_witness :
    (validate_passengers (fun _ => []) [] [⟨"Zoe", .night, "", none⟩] 5 .day
        ["Zoe"]).1.length
      + (validate_passengers (fun _ => []) [] [⟨"Zoe", .night, "", none⟩] 5 .day
        ["Zoe"]).2.length = 1
    ∧ msgShiftMismatch "Zoe" .night .day
        ∈ (validate_passengers (fun _ => []) [] [⟨"Zoe", .night, "", none⟩] 5 .day
          ["Zoe"]).2 :=
  ⟨(C5_validate_partition (fun _ => []) [] [⟨"Zoe", .night, "", none⟩] 5 .day
      ["Zoe"]).1,
    ((C5_validate_partition (fun _ => []) [] [⟨"Zoe", .night, "", none⟩] 5 .day
      ["Zoe"]).2 "Zoe" (by decide) ⟨"Zoe", .night, "", none⟩ (by decide) rfl
      rfl).1⟩

theorem tgidClaimed_iff (ref : Option Int) (tg : Int) :
    tgidClaimed ref tg = true ↔ ∃ x, ref = some x ∧ x ≠ 0 ∧ x ≠ tg := by
  cases ref <;> simp [tgidClaimed]

theorem ridesConflict_iff (drivers : List DriverR) (rides : String) (tg : Int) :
    ridesConflict drivers rides tg = true ↔
      (rides ≠ "" ∧ normalize_text rides ≠ normalize_text (toString tg)
        ∧ ∃ dr, get_driver drivers tg = some dr
            ∧ normalize_text rides ≠ normalize_text dr.name) := by
  cases hgd : get_driver drivers tg <;> simp [ridesConflict, hgd, and_assoc]

/-- C10 counterexample: an employee whose driver-reference already equals
the requesting driver is nevertheless rejected as already-claimed when the
rides-with label matches neither the driver's id string nor the driver's
name — the rides-with check is not skipped for own references, contrary to
the claim that re-adding one's own passenger is never rejected.  Employee
Pat references driver 111, whose drivers-row name is Rita, but Pat's
rides-with label reads Quinn. -/
theorem C10_counterexample :
    (⟨"Pat", .day, "Quinn", some 111⟩ : EmpR).driver_tgid = some 111
    ∧ validate_passengers (fun _ => []) [⟨"Rita", 111, "", .day⟩]
        [⟨"Pat", .day, "Quinn", some 111⟩] 111 .day ["Pat"]
      = ([], [msgAlreadyClaimed "Pat"]) := by
  decide

/-- C10 amended: with the candidate resolved and the shift check passing,
the already-claimed rejection fires exactly when the driver-reference is a
nonzero identity different from the requester, or when the rides-with
label is nonempty and matches neither `str(driver_tgid)` nor the resolved
driver's name — the latter regardless of the driver-reference, including
when it equals the requester; the candidate is accepted exactly otherwise,
and in particular an employee with an absent (or own) driver-reference and
an empty rides-with label always passes the exclusivity checks. -/
theorem C10_exclusivity_checks (simFn : String → List String)
    (drivers : List DriverR) (emps : List EmpR) (tg : Int) (ds : ShiftType)
    (name : String) (e : EmpR)
    (hlook : empMapLookup emps (normalize_text name) = some e)
    (hshift : shiftMismatchB ds e.shift = false) :
    (checkOne simFn drivers emps tg ds name = .error (msgAlreadyClaimed name)
      ↔ ((∃ x, e.driver_tgid = some x ∧ x ≠ 0 ∧ x ≠ tg)
         ∨ (e.rides_with ≠ ""
            ∧ normalize_text e.rides_with ≠ normalize_text (toString tg)
            ∧ ∃ dr, get_driver drivers tg = some dr
                ∧ normalize_text e.rides_with ≠ normalize_text dr.name)))
    ∧ (checkOne simFn drivers emps tg ds name = .ok e
      ↔ ¬((∃ x, e.driver_tgid = some x ∧ x ≠ 0 ∧ x ≠ tg)
         ∨ (e.rides_with ≠ ""
            ∧ normalize_text e.rides_with ≠ normalize_text (toString tg)
            ∧ ∃ dr, get_driver drivers tg = some dr
                ∧ normalize_text e.rides_with ≠ normalize_text dr.name)))
    ∧ ((e.driver_tgid = none ∨ e.driver_tgid = some tg) ∧ e.rides_with = "" →
        checkOne simFn drivers emps tg ds name = .ok e) := by
  have hred : checkOne simFn drivers emps tg ds name
      = (if tgidClaimed e.driver_tgid tg = true then .error (msgAlreadyClaimed name)
         else if ridesConflict drivers e.rides_with tg = true then
           .error (msgAlreadyClaimed name)
         else .ok e) := by
    simp only [checkOne, hlook]
    rw [if_neg (by simp [hshift])]
  refine ⟨?_, ?_, ?_⟩
  · rw [hred]
    by_cases h2 : tgidClaimed e.driver_tgid tg = true
    · rw [if_pos h2]
      exact ⟨fun _ => Or.inl ((tgidClaimed_iff _ _).mp h2), fun _ => rfl⟩
    · rw [if_neg h2]
      by_cases h3 : ridesConflict drivers e.rides_with tg = true
      · rw [if_pos h3]
        exact ⟨fun _ => Or.inr ((ridesConflict_iff _ _ _).mp h3), fun _ => rfl⟩
      · rw [if_neg h3]
        constructor
        · intro hcon
          exact absurd hcon (by simp)
        · rintro (hc | hc)
          · exact absurd ((tgidClaimed_iff _ _).mpr hc) h2
          · exact absurd ((ridesConflict_iff _ _ _).mpr hc) h3
  · rw [hred]
    by_cases h2 : tgidClaimed e.driver_tgid tg = true
    · rw [if_pos h2]
      constructor
      · intro hcon
        exact absurd hcon (by simp)
      · intro hcon
        exact absurd (Or.inl ((tgidClaimed_iff _ _).mp h2)) hcon
    · rw [if_neg h2]
      by_cases h3 : ridesConflict drivers e.rides_with tg = true
      · rw [if_pos h3]
        constructor
        · intro hcon
          exact absurd hcon (by simp)
        · intro hcon
          exact absurd (Or.inr ((ridesConflict_iff _ _ _).mp h3)) hcon
      · rw [if_neg h3]
        constructor
        · rintro - (hc | hc)
          · exact absurd ((tgidClaimed_iff _ _).mpr hc) h2
          · exact absurd ((ridesConflict_iff _ _ _).mpr hc) h3
        · intro _
          rfl
  · rintro ⟨href, hrw⟩
    rw [hred]
    rw [if_neg (by
      rcases href with h | h <;> simp [tgidClaimed, h])]
    rw [if_neg (by simp [ridesConflict, hrw])]

/-- Witness for C10's amended theorem: an unreferenced employee with an
empty rides-with label passes the exclusivity checks. -/
theorem C10_exclusivity_checks_witness :
    checkOne (fun _ => []) [] [⟨"Sam", .day, "", none⟩] 3 .day "Sam"
      = .ok ⟨"Sam", .day, "", none⟩ :=
  (C10_exclusivity_checks (fun _ => []) [] [⟨"Sam", .day, "", none⟩] 3 .day
    "Sam" ⟨"Sam", .day, "", none⟩ (by decide) (by decide)).2.2 ⟨Or.inl rfl, rfl⟩

theorem weekly_run_clears (tg : Int) :
    ∀ evs w, (weekly_run tg w evs).2 ≤ if w.1 then 1 else 0 := by
  intro evs
  induction evs with
  | nil => intro w; simp [weekly_run]
  | cons e rest ih =>
    intro w
    cases hb : w.1 with
    | false =>
      have hstep : (match e with
          | .timeout => weekly_timeout_step tg w
          | .reply t => weekly_answer_step tg t w) = (w, false) := by
        cases e with
        | timeout => simp [weekly_timeout_step, hb]
        | reply t => simp [weekly_answer_step, hb]
      simp only [weekly_run, hstep]
      have := ih w
      simp [hb] at this ⊢
      omega
    | true =>
      have h2 : ∀ s', (weekly_run tg (false, s') rest).2 ≤ 0 := by
        intro s'
        have := ih (false, s')
        simpa using this
      cases e with
      | timeout =>
        have hstep : weekly_timeout_step tg w = ((false, clearStep w.2 tg), true) := by
          simp [weekly_timeout_step, hb]
        have := h2 (clearStep w.2 tg)
        simp [weekly_run, hstep, hb]
        omega
      | reply t =>
        by_cases ht : pyLowerS (pyStripS t) = "нет"
        · have hstep : weekly_answer_step tg t w = ((false, clearStep w.2 tg), true) := by
            simp [weekly_answer_step, hb, ht]
          have := h2 (clearStep w.2 tg)
          simp [weekly_run, hstep, hb]
          omega
        · have hstep : weekly_answer_step tg t w = ((false, w.2), false) := by
            simp [weekly_answer_step, hb, ht]
          have := h2 w.2
          simp [weekly_run, hstep, hb]
          omega

/-- C4: the reply/timeout race is safe.  Once the pending-confirmation
entry has been removed, a later affirmative or negative reply is a no-op
(no state change, no clear), and a later timeout firing is likewise a
no-op; starting from an armed window, any sequence of timeout firings and
replies performs the clear-and-cascade at most once. -/
theorem C4_reply_timeout_race (tg : Int) :
    (∀ s text, weekly_answer_step tg text (false, s) = ((false, s), false))
    ∧ (∀ s, weekly_timeout_step tg (false, s) = ((false, s), false))
    ∧ (∀ s evs, (weekly_run tg (true, s) evs).2 ≤ 1) := by
  refine ⟨?_, ?_, ?_⟩
  · intro s text
    simp [weekly_answer_step]
  · intro s
    simp [weekly_timeout_step]
  · intro s evs
    have := weekly_run_clears tg evs (true, s)
    simpa using this

theorem dpStored_len (dp : DPR) :
    (dpStored dp).passengers.length ≤ MAX_PASSENGERS := by
  calc ((dp.passengers.take 4).filter (fun p => p ≠ "")).length
      ≤ (dp.passengers.take 4).length := List.length_filter_le _ _
    _ ≤ 4 := by
        rw [List.length_take]
        omega

theorem mem_upsert_dp (dp : DPR) :
    ∀ dps x, x ∈ upsert_dp dp dps → x = dpStored dp ∨ x ∈ dps := by
  intro dps
  induction dps with
  | nil => intro x hx; simp [upsert_dp] at hx; exact Or.inl hx
  | cons r rest ih =>
    intro x hx
    by_cases hr : r.driver_tgid = dp.driver_tgid
    · rw [upsert_dp, if_pos hr] at hx
      rcases List.mem_cons.mp hx with h | h
      · exact Or.inl h
      · exact Or.inr (List.mem_cons_of_mem _ h)
    · rw [upsert_dp, if_neg hr] at hx
      rcases List.mem_cons.mp hx with h | h
      · exact Or.inr (h ▸ List.mem_cons_self _ _)
      · rcases ih x h with h2 | h2
        · exact Or.inl h2
        · exact Or.inr (List.mem_cons_of_mem _ h2)

theorem clear_dp_mem (tg : Int) :
    ∀ dps x, x ∈ (clear_dp tg dps).1 → x ∈ dps ∨ x.passengers = [] := by
  intro dps
  induction dps with
  | nil => intro x hx; simp [clear_dp] at hx
  | cons r rest ih =>
    intro x hx
    by_cases hr : r.driver_tgid = tg
    · rw [clear_dp, if_pos hr] at hx
      rcases List.mem_cons.mp hx with h | h
      · exact Or.inr (by rw [h])
      · exact Or.inl (List.mem_cons_of_mem _ h)
    · rw [clear_dp, if_neg hr] at hx
      rcases List.mem_cons.mp hx with h | h
      · exact Or.inl (h ▸ List.mem_cons_self _ _)
      · rcases ih x h with h2 | h2
        · exact Or.inl (List.mem_cons_of_mem _ h2)
        · exact Or.inr h2

theorem assignStep_dps_shape (drivers : List DriverR) (simFn : String → List String)
    (s : AState) (tg : Int) (raw : List String) :
    (assignStep drivers simFn s tg raw).dps = s.dps
    ∨ ∃ dp', (assignStep drivers simFn s tg raw).dps = upsert_dp dp' s.dps := by
  cases hgd : get_driver drivers tg with
  | none => left; simp [assignStep, hgd]
  | some driver =>
    by_cases h1 : uniqueNamesOf raw = []
    · left; simp [assignStep, hgd, h1]
    · by_cases h2 : MAX_PASSENGERS < (uniqueNamesOf raw).length
      · left; simp [assignStep, hgd, h1, h2]
      · by_cases h3 : (validate_passengers simFn drivers s.employees driver.tg_id
            driver.shift (uniqueNamesOf raw)).2 ≠ []
        · left; simp [assignStep, hgd, h1, h2, h3]
        · by_cases h4 : MAX_PASSENGERS < (mergedOf s tg raw).length
          · left; simp [assignStep, hgd, h1, h2, h3, h4]
          · right
            exact ⟨⟨driver.name, driver.tg_id, driver.phone, driver.shift,
              mergedOf s tg raw⟩, by simp [assignStep, hgd, h1, h2, h3, h4]⟩

theorem removeStep_dps_shape (s : AState) (tg : Int) (name0 : String) :
    (removeStep s tg name0).dps = s.dps
    ∨ ∃ dp', (removeStep s tg name0).dps = upsert_dp dp' s.dps := by
  by_cases h0 : pyStripS name0 = ""
  · left; simp [removeStep, h0]
  · cases hgd : get_dp s.dps tg with
    | none => left; simp [removeStep, h0, remove_passenger, hgd]
    | some dp =>
      cases hidx : dp.passengers.findIdx?
          (fun p => normalize_text p == normalize_text (pyStripS name0)) with
      | none => left; simp [removeStep, h0, remove_passenger, hgd, hidx]
      | some j =>
        right
        exact ⟨{ dp with passengers := dp.passengers.eraseIdx j },
          by simp [removeStep, h0, remove_passenger, hgd, hidx]⟩

theorem applyOp_bound (drivers : List DriverR) (simFn : String → List String)
    (s : AState) (op : AOp)
    (h : ∀ dp ∈ s.dps, dp.passengers.length ≤ MAX_PASSENGERS) :
    ∀ dp ∈ (applyOp drivers simFn s op).dps, dp.passengers.length ≤ MAX_PASSENGERS := by
  cases op with
  | assign tg raw =>
    simp only [applyOp]
    rcases assignStep_dps_shape drivers simFn s tg raw with hsh | ⟨dp', hsh⟩
    · rw [hsh]; exact h
    · rw [hsh]
      intro dp hdp
      rcases mem_upsert_dp dp' s.dps dp hdp with heq | hm
      · rw [heq]; exact dpStored_len dp'
      · exact h dp hm
  | remove tg name =>
    simp only [applyOp]
    rcases removeStep_dps_shape s tg name with hsh | ⟨dp', hsh⟩
    · rw [hsh]; exact h
    · rw [hsh]
      intro dp hdp
      rcases mem_upsert_dp dp' s.dps dp hdp with heq | hm
      · rw [heq]; exact dpStored_len dp'
      · exact h dp hm
  | clear tg =>
    simp only [applyOp, clearStep]
    intro dp hdp
    rcases clear_dp_mem tg s.dps dp hdp with hm | hnil
    · exact h dp hm
    · rw [hnil]
      simp [MAX_PASSENGERS]

/-- C2: no sequence of operations can leave any driver's passenger list
longer than the configured `MAX_PASSENGERS = 4`, and a `passengers_input`
turn whose merged list (existing passengers plus the deduplicated new
names) would exceed the maximum is rejected before any write, leaving both
tables — the drivers_passengers rows and all employee rows — exactly
unchanged. -/
theorem C2_passenger_bound (drivers : List DriverR) (simFn : String → List String) :
    (∀ s ops, (∀ dp ∈ s.dps, dp.passengers.length ≤ MAX_PASSENGERS) →
      ∀ dp ∈ (applyOps drivers simFn s ops).dps,
        dp.passengers.length ≤ MAX_PASSENGERS)
    ∧ (∀ s tg raw, MAX_PASSENGERS < (mergedOf s tg raw).length →
        assignStep drivers simFn s tg raw = s) := by
  constructor
  · intro s ops
    induction ops generalizing s with
    | nil => intro h; exact h
    | cons op rest ih =>
      intro h
      exact ih (applyOp drivers simFn s op) (applyOp_bound drivers simFn s op h)
  · intro s tg raw hover
    cases hgd : get_driver drivers tg with
    | none => simp [assignStep, hgd]
    | some driver =>
      by_cases h1 : uniqueNamesOf raw = []
      · simp [assignStep, hgd, h1]
      · by_cases h2 : MAX_PASSENGERS < (uniqueNamesOf raw).length
        · simp [assignStep, hgd, h1, h2]
        · by_cases h3 : (validate_passengers simFn drivers s.employees driver.tg_id
              driver.shift (uniqueNamesOf raw)).2 ≠ []
          · simp [assignStep, hgd, h1, h2, h3]
          · simp [assignStep, hgd, h1, h2, h3, hover]

/-- Witness for C2: a driver already carrying three passengers; offering
two more makes the merged list five long, and the turn leaves the state
untouched; the bound also holds after running that operation. -/
theorem C2_passenger_bound_witness :
    assignStep [⟨"Dave", 5, "", .day⟩] (fun _ => [])
        ⟨[], [⟨"Dave", 5, "", .day, ["A", "B", "C"]⟩]⟩ 5 ["P4", "P5"]
      = ⟨[], [⟨"Dave", 5, "", .day, ["A", "B", "C"]⟩]⟩
    ∧ (DPR.mk "Dave" 5 "" .day ["A", "B", "C"]).passengers.length
        ≤ MAX_PASSENGERS :=
  ⟨(C2_passenger_bound [⟨"Dave", 5, "", .day⟩] (fun _ => [])).2
      ⟨[], [⟨"Dave", 5, "", .day, ["A", "B", "C"]⟩]⟩ 5 ["P4", "P5"] (by decide),
    (C2_passenger_bound [⟨"Dave", 5, "", .day⟩] (fun _ => [])).1
      ⟨[], [⟨"Dave", 5, "", .day, ["A", "B", "C"]⟩]⟩ [.assign 5 ["P4", "P5"]]
      (by decide) ⟨"Dave", 5, "", .day, ["A", "B", "C"]⟩ (by decide)⟩

/-! ## Lemmas about strip, dedupe and validation success -/

theorem dropWhile_dropWhile (p : Char → Bool) (l : List Char) :
    (l.dropWhile p).dropWhile p = l.dropWhile p := by
  induction l with
  | nil => rfl
  | cons a t ih =>
    by_cases ha : p a
    · simp [List.dropWhile_cons, ha, ih]
    · simp [List.dropWhile_cons, ha]

theorem head_dropWhile_false (p : Char → Bool) (l : List Char) :
    ∀ a, (l.dropWhile p).head? = some a → p a = false := by
  induction l with
  | nil => intro a h; simp at h
  | cons b t ih =>
    intro a h
    by_cases hb : p b
    · rw [List.dropWhile_cons, if_pos hb] at h
      exact ih a h
    · rw [List.dropWhile_cons, if_neg hb] at h
      simp only [List.head?_cons, Option.some.injEq] at h
      subst h
      simp at hb
      exact hb

theorem dropWhile_eq_self_of_head (p : Char → Bool) (l : List Char)
    (h : ∀ a, l.head? = some a → p a = false) : l.dropWhile p = l := by
  cases l with
  | nil => rfl
  | cons a t =>
    have := h a (by simp)
    simp [List.dropWhile_cons, this]

theorem suffix_getLast? {α : Type} {s l : List α} (hs : s <:+ l) (hne : s ≠ []) :
    s.getLast? = l.getLast? := by
  obtain ⟨pre, rfl⟩ := hs
  rw [List.getLast?_append_of_ne_nil]
  exact hne

theorem pyStripChars_idem (l : List Char) :
    pyStripChars (pyStripChars l) = pyStripChars l := by
  have h1 : (pyStripChars l).dropWhile pyIsSpace = pyStripChars l := by
    apply dropWhile_eq_self_of_head
    intro a ha
    rw [show pyStripChars l
        = ((l.dropWhile pyIsSpace).reverse.dropWhile pyIsSpace).reverse from rfl] at ha
    rw [List.head?_reverse] at ha
    by_cases htn : (l.dropWhile pyIsSpace).reverse.dropWhile pyIsSpace = []
    · rw [htn] at ha
      simp at ha
    · rw [suffix_getLast? (List.dropWhile_suffix pyIsSpace) htn] at ha
      rw [List.getLast?_reverse] at ha
      exact head_dropWhile_false pyIsSpace l a ha
  rw [show pyStripChars (pyStripChars l)
      = (((pyStripChars l).dropWhile pyIsSpace).reverse.dropWhile pyIsSpace).reverse
      from rfl]
  rw [h1]
  rw [show pyStripChars l
      = ((l.dropWhile pyIsSpace).reverse.dropWhile pyIsSpace).reverse from rfl]
  rw [List.reverse_reverse, dropWhile_dropWhile]

theorem pyStripS_idem (s : String) : pyStripS (pyStripS s) = pyStripS s := by
  show String.mk (pyStripChars (pyStripChars s.data)) = String.mk (pyStripChars s.data)
  rw [pyStripChars_idem]

theorem normalize_pyStripS (s : String) :
    normalize_text (pyStripS s) = normalize_text s := by
  show pyLowerS (pyStripS (pyStripS s)) = pyLowerS (pyStripS s)
  rw [pyStripS_idem]

theorem normalize_empty_iff (s : String) :
    normalize_text s = "" ↔ pyStripS s = "" := by
  constructor
  · intro h
    have hd := congrArg String.data h
    have hd2 : (pyStripChars s.data).map pyLowerChar = [] := hd
    have hd3 : pyStripChars s.data = [] := List.map_eq_nil_iff.mp hd2
    show String.mk (pyStripChars s.data) = ""
    rw [hd3]
  · intro h
    have hd : pyStripChars s.data = [] := congrArg String.data h
    show String.mk ((pyStripChars s.data).map pyLowerChar) = ""
    rw [hd]
    rfl

theorem dedupeNorm_subset :
    ∀ l seen (x : String), x ∈ dedupeNorm seen l → x ∈ l := by
  intro l
  induction l with
  | nil => intro seen x hx; simp [dedupeNorm] at hx
  | cons n rest ih =>
    intro seen x hx
    by_cases hn : normalize_text n ∈ seen
    · rw [dedupeNorm, if_pos hn] at hx
      exact List.mem_cons_of_mem _ (ih seen x hx)
    · rw [dedupeNorm, if_neg hn] at hx
      rcases List.mem_cons.mp hx with h | h
      · exact h ▸ List.mem_cons_self _ _
      · exact List.mem_cons_of_mem _ (ih _ x h)

theorem dedupeNorm_props :
    ∀ l (seen : List String), ((dedupeNorm seen l).map normalize_text).Nodup
      ∧ ∀ x ∈ dedupeNorm seen l, normalize_text x ∉ seen := by
  intro l
  induction l with
  | nil => intro seen; simp [dedupeNorm]
  | cons n rest ih =>
    intro seen
    by_cases hn : normalize_text n ∈ seen
    · rw [dedupeNorm, if_pos hn]
      exact ih seen
    · rw [dedupeNorm, if_neg hn]
      obtain ⟨ih1, ih2⟩ := ih (normalize_text n :: seen)
      constructor
      · simp only [List.map_cons, List.nodup_cons]
        refine ⟨?_, ih1⟩
        intro hmem
        obtain ⟨x, hx1, hx2⟩ := List.mem_map.mp hmem
        exact ih2 x hx1 (hx2 ▸ List.mem_cons_self _ _)
      · intro x hx
        rcases List.mem_cons.mp hx with h | h
        · rw [h]; exact hn
        · intro hcon
          exact ih2 x h (List.mem_cons_of_mem _ hcon)

theorem cleanNames_mem (raw : List String) (x : String) (hx : x ∈ cleanNames raw) :
    pyStripS x = x ∧ x ≠ "" := by
  simp only [cleanNames, List.mem_filter, List.mem_map] at hx
  obtain ⟨⟨y, _, hy⟩, hne⟩ := hx
  refine ⟨?_, by simpa using hne⟩
  rw [← hy, pyStripS_idem]

theorem uniqueNamesOf_mem (raw : List String) (x : String)
    (hx : x ∈ uniqueNamesOf raw) : pyStripS x = x ∧ x ≠ "" :=
  cleanNames_mem raw x (dedupeNorm_subset _ _ _ hx)

theorem uniqueNamesOf_nodup (raw : List String) :
    ((uniqueNamesOf raw).map normalize_text).Nodup :=
  (dedupeNorm_props (cleanNames raw) []).1

theorem checkOne_ok_lookup (simFn : String → List String) (drivers : List DriverR)
    (emps : List EmpR) (tg : Int) (ds : ShiftType) (n : String) (e : EmpR)
    (h : checkOne simFn drivers emps tg ds n = .ok e) :
    empMapLookup emps (normalize_text n) = some e
    ∧ tgidClaimed e.driver_tgid tg = false := by
  cases hl : empMapLookup emps (normalize_text n) with
  | none =>
    simp only [checkOne, hl] at h
    cases hsim : simFn n <;> simp [hsim] at h
  | some emp2 =>
    simp only [checkOne, hl] at h
    by_cases h1 : shiftMismatchB ds emp2.shift = true
    · simp [h1] at h
    · rw [if_neg h1] at h
      by_cases h2 : tgidClaimed emp2.driver_tgid tg = true
      · simp [h2] at h
      · rw [if_neg h2] at h
        by_cases h3 : ridesConflict drivers emp2.rides_with tg = true
        · simp [h3] at h
        · rw [if_neg h3] at h
          injection h with h4
          subst h4
          exact ⟨rfl, by simpa using h2⟩

theorem validate_errors_nil (simFn : String → List String) (drivers : List DriverR)
    (emps : List EmpR) (tg : Int) (ds : ShiftType) :
    ∀ names, (validateAux simFn drivers emps tg ds names).2 = [] →
      ∀ n ∈ names, ∃ e, checkOne simFn drivers emps tg ds n = .ok e := by
  intro names
  induction names with
  | nil => intro _ n hn; simp at hn
  | cons hd rest ih =>
    intro hnil n hn
    cases hchk : checkOne simFn drivers emps tg ds hd with
    | error m =>
      simp only [validateAux, hchk] at hnil
      cases hnil
    | ok e =>
      simp only [validateAux, hchk] at hnil
      rcases List.mem_cons.mp hn with heq | htail
      · exact ⟨e, heq ▸ hchk⟩
      · exact ih hnil n htail

theorem tgidClaimed_false_iff (ref : Option Int) (tg : Int) :
    tgidClaimed ref tg = false ↔ ref = none ∨ ref = some 0 ∨ ref = some tg := by
  cases ref with
  | none => simp [tgidClaimed]
  | some x =>
    simp [tgidClaimed]
    omega

theorem get_driver_mem (drivers : List DriverR) (tg : Int) (d : DriverR)
    (h : get_driver drivers tg = some d) : d ∈ drivers ∧ d.tg_id = tg :=
  ⟨List.mem_of_find?_eq_some h, by simpa using List.find?_some h⟩

theorem upd_names_of_match (ename dname : String) (dtg : Int) :
    ∀ es, (∃ e ∈ es, normalize_text e.name = normalize_text ename) →
      normNamesE (update_employee_driver ename dname dtg es) = normNamesE es := by
  intro es
  induction es with
  | nil => rintro ⟨e, he, -⟩; simp at he
  | cons a t ih =>
    rintro ⟨e, he, hne⟩
    by_cases ha : normalize_text a.name = normalize_text ename
    · rw [update_employee_driver, if_pos ha]
      simp [normNamesE]
    · rw [update_employee_driver, if_neg ha]
      simp only [normNamesE, List.map_cons]
      rcases List.mem_cons.mp he with h | h
      · exact absurd (h ▸ hne) ha
      · have := ih ⟨e, h, hne⟩
        simp only [normNamesE] at this
        rw [this]

theorem upd_of_no_match (ename dname : String) (dtg : Int) :
    ∀ es, (∀ e ∈ es, normalize_text e.name ≠ normalize_text ename) →
      update_employee_driver ename dname dtg es
        = es ++ [newEmpRow ename dname dtg] := by
  intro es
  induction es with
  | nil => intro _; rfl
  | cons a t ih =>
    intro h
    rw [update_employee_driver, if_neg (h a (List.mem_cons_self _ _))]
    rw [ih (fun e he => h e (List.mem_cons_of_mem _ he))]
    rfl

theorem upd_frame (ename dname : String) (dtg : Int) :
    ∀ es e', e' ∈ es → normalize_text e'.name ≠ normalize_text ename →
      e' ∈ update_employee_driver ename dname dtg es := by
  intro es
  induction es with
  | nil => intro e' he; simp at he
  | cons a t ih =>
    intro e' he' hne
    by_cases ha : normalize_text a.name = normalize_text ename
    · rw [update_employee_driver, if_pos ha]
      rcases List.mem_cons.mp he' with h | h
      · exact absurd (h ▸ hne) (by rw [ha]; simp)
      · exact List.mem_cons_of_mem _ h
    · rw [update_employee_driver, if_neg ha]
      rcases List.mem_cons.mp he' with h | h
      · exact h ▸ List.mem_cons_self _ _
      · exact List.mem_cons_of_mem _ (ih e' h hne)

theorem upd_target (ename dname : String) (dtg : Int) :
    ∀ es, (∃ e ∈ es, normalize_text e.name = normalize_text ename) →
      ∃ e' ∈ update_employee_driver ename dname dtg es,
        normalize_text e'.name = normalize_text ename
        ∧ e'.rides_with = pyStripS dname
        ∧ e'.driver_tgid = (if dtg = 0 then none else some dtg) := by
  intro es
  induction es with
  | nil => rintro ⟨e, he, -⟩; simp at he
  | cons a t ih =>
    rintro ⟨e, he, hne⟩
    by_cases ha : normalize_text a.name = normalize_text ename
    · rw [update_employee_driver, if_pos ha]
      exact ⟨_, List.mem_cons_self _ _, ha, rfl, rfl⟩
    · rw [update_employee_driver, if_neg ha]
      rcases List.mem_cons.mp he with h | h
      · exact absurd (h ▸ hne) ha
      · obtain ⟨e', he', h1, h2, h3⟩ := ih ⟨e, h, hne⟩
        exact ⟨e', List.mem_cons_of_mem _ he', h1, h2, h3⟩

theorem updFold_props (dname : String) (dtg : Int) :
    ∀ (ns : List String) (es : List EmpR), (normNamesE es).Nodup →
      ((ns.map normalize_text).Nodup) →
      (∀ n ∈ ns, ∃ e ∈ es, normalize_text e.name = normalize_text n) →
      (normNamesE (ns.foldl (fun acc n => update_employee_driver n dname dtg acc) es)
          = normNamesE es)
      ∧ (∀ e' ∈ es, normalize_text e'.name ∉ ns.map normalize_text →
          e' ∈ ns.foldl (fun acc n => update_employee_driver n dname dtg acc) es)
      ∧ (∀ n ∈ ns,
          ∃ e' ∈ ns.foldl (fun acc n => update_employee_driver n dname dtg acc) es,
            normalize_text e'.name = normalize_text n
            ∧ e'.rides_with = pyStripS dname
            ∧ e'.driver_tgid = (if dtg = 0 then none else some dtg)) := by
  intro ns
  induction ns with
  | nil =>
    intro es _ _ _
    exact ⟨rfl, fun e' he _ => he, fun n hn => absurd hn (by simp)⟩
  | cons n rest ih =>
    intro es hnd hns hex
    have hexn := hex n (List.mem_cons_self _ _)
    have hnames1 := upd_names_of_match n dname dtg es hexn
    have hnd1 : (normNamesE (update_employee_driver n dname dtg es)).Nodup := by
      rw [hnames1]; exact hnd
    rw [List.map_cons] at hns
    have hcons := List.nodup_cons.mp hns
    have hex1 : ∀ m ∈ rest, ∃ e ∈ update_employee_driver n dname dtg es,
        normalize_text e.name = normalize_text m := by
      intro m hm
      obtain ⟨e, he, hne⟩ := hex m (List.mem_cons_of_mem _ hm)
      have hmm : normalize_text m ∈ normNamesE (update_employee_driver n dname dtg es) := by
        rw [hnames1]
        exact List.mem_map.mpr ⟨e, he, hne⟩
      obtain ⟨e1, he1, hne1⟩ := List.mem_map.mp hmm
      exact ⟨e1, he1, hne1⟩
    obtain ⟨ihA, ihB, ihC⟩ := ih (update_employee_driver n dname dtg es) hnd1 hcons.2 hex1
    have hfold : (n :: rest).foldl (fun acc m => update_employee_driver m dname dtg acc) es
        = rest.foldl (fun acc m => update_employee_driver m dname dtg acc)
            (update_employee_driver n dname dtg es) := by
      simp
    refine ⟨?_, ?_, ?_⟩
    · rw [hfold, ihA, hnames1]
    · intro e' he' hnm
      rw [List.map_cons] at hnm
      have hn1 : normalize_text e'.name ≠ normalize_text n := by
        intro hc
        exact hnm (hc ▸ List.mem_cons_self _ _)
      have he1 : e' ∈ update_employee_driver n dname dtg es :=
        upd_frame n dname dtg es e' he' hn1
      rw [hfold]
      exact ihB e' he1 (fun hc => hnm (List.mem_cons_of_mem _ hc))
    · intro m hm
      rw [hfold]
      rcases List.mem_cons.mp hm with heq | htail
      · subst heq
        obtain ⟨e', he', hnn, hr, hd⟩ := upd_target m dname dtg es hexn
        have hsur : e' ∈ rest.foldl (fun acc k => update_employee_driver k dname dtg acc)
            (update_employee_driver m dname dtg es) :=
          ihB e' he' (by rw [hnn]; exact hcons.1)
        exact ⟨e', hsur, hnn, hr, hd⟩
      · exact ihC m htail

theorem clear_names (name : String) (oif : Option Int) :
    ∀ es, normNamesE (clear_employee_driver name oif es) = normNamesE es := by
  intro es
  induction es with
  | nil => rfl
  | cons a t ih =>
    by_cases ha : normalize_text a.name = normalize_text name
    · rw [clear_employee_driver, if_pos ha]
      by_cases hg : oif.isSome ∧ a.driver_tgid ≠ oif
      · rw [if_pos hg]
      · rw [if_neg hg]
        simp [normNamesE]
    · rw [clear_employee_driver, if_neg ha]
      simp only [normNamesE, List.map_cons]
      have := ih
      simp only [normNamesE] at this
      rw [this]

theorem clear_frame (name : String) (oif : Option Int) :
    ∀ es e', e' ∈ es → normalize_text e'.name ≠ normalize_text name →
      e' ∈ clear_employee_driver name oif es := by
  intro es
  induction es with
  | nil => intro e' he; simp at he
  | cons a t ih =>
    intro e' he' hne
    by_cases ha : normalize_text a.name = normalize_text name
    · rw [clear_employee_driver, if_pos ha]
      rcases List.mem_cons.mp he' with h | h
      · exact absurd (h ▸ hne) (by rw [ha]; simp)
      · by_cases hg : oif.isSome ∧ a.driver_tgid ≠ oif
        · rw [if_pos hg]
          exact List.mem_cons_of_mem _ h
        · rw [if_neg hg]
          exact List.mem_cons_of_mem _ h
    · rw [clear_employee_driver, if_neg ha]
      rcases List.mem_cons.mp he' with h | h
      · exact h ▸ List.mem_cons_self _ _
      · exact List.mem_cons_of_mem _ (ih e' h hne)

theorem clear_keep_ref (name : String) (t0 : Int) :
    ∀ es e', e' ∈ es → e'.driver_tgid ≠ some t0 →
      e' ∈ clear_employee_driver name (some t0) es := by
  intro es
  induction es with
  | nil => intro e' he; simp at he
  | cons a t ih =>
    intro e' he' href
    by_cases ha : normalize_text a.name = normalize_text name
    · rw [clear_employee_driver, if_pos ha]
      rcases List.mem_cons.mp he' with h | h
      · rw [if_pos ⟨rfl, h ▸ href⟩]
        exact h ▸ List.mem_cons_self _ _
      · by_cases hg : (some t0 : Option Int).isSome ∧ a.driver_tgid ≠ some t0
        · rw [if_pos hg]
          exact List.mem_cons_of_mem _ h
        · rw [if_neg hg]
          exact List.mem_cons_of_mem _ h
    · rw [clear_employee_driver, if_neg ha]
      rcases List.mem_cons.mp he' with h | h
      · exact h ▸ List.mem_cons_self _ _
      · exact List.mem_cons_of_mem _ (ih e' h href)

theorem clearFold_names (oif : Option Int) :
    ∀ (ps : List String) (es : List EmpR), normNamesE (ps.foldl (fun acc p => clear_employee_driver p oif acc) es)
      = normNamesE es := by
  intro ps
  induction ps with
  | nil => intro es; rfl
  | cons p rest ih =>
    intro es
    simp only [List.foldl_cons]
    rw [ih, clear_names]

theorem clearFold_keep_ref (t0 : Int) :
    ∀ (ps : List String) (es : List EmpR) (e' : EmpR), e' ∈ es → e'.driver_tgid ≠ some t0 →
      e' ∈ ps.foldl (fun acc p => clear_employee_driver p (some t0) acc) es := by
  intro ps
  induction ps with
  | nil => intro es e' he _; exact he
  | cons p rest ih =>
    intro es e' he' href
    simp only [List.foldl_cons]
    exact ih _ e' (clear_keep_ref p t0 es e' he' href) href

/-! ## Lemmas about the drivers_passengers-table operations -/

theorem dpStored_id (dp : DPR) (hlen : dp.passengers.length ≤ 4)
    (hne : ∀ p ∈ dp.passengers, p ≠ "") : dpStored dp = dp := by
  rw [dpStored]
  have h1 : dp.passengers.take 4 = dp.passengers := List.take_of_length_le hlen
  rw [h1, List.filter_eq_self.mpr (fun p hp => by simpa using hne p hp)]

theorem get_dp_mem (dps : List DPR) (tg : Int) (dp : DPR)
    (h : get_dp dps tg = some dp) : dp ∈ dps ∧ dp.driver_tgid = tg :=
  ⟨List.mem_of_find?_eq_some h, by simpa using List.find?_some h⟩

theorem get_dp_none (dps : List DPR) (tg : Int) (h : get_dp dps tg = none) :
    ∀ dp ∈ dps, dp.driver_tgid ≠ tg := by
  intro dp hdp
  have := List.find?_eq_none.mp h dp hdp
  simpa using this

theorem upsert_dp_frame (dp : DPR) :
    ∀ dps x, x ∈ dps → x.driver_tgid ≠ dp.driver_tgid → x ∈ upsert_dp dp dps := by
  intro dps
  induction dps with
  | nil => intro x hx; simp at hx
  | cons r rest ih =>
    intro x hx hne
    by_cases hr : r.driver_tgid = dp.driver_tgid
    · rw [upsert_dp, if_pos hr]
      rcases List.mem_cons.mp hx with h | h
      · exact absurd (h ▸ hne) (by rw [hr]; simp)
      · exact List.mem_cons_of_mem _ h
    · rw [upsert_dp, if_neg hr]
      rcases List.mem_cons.mp hx with h | h
      · exact h ▸ List.mem_cons_self _ _
      · exact List.mem_cons_of_mem _ (ih x h hne)

theorem upsert_dp_stored_mem (dp : DPR) :
    ∀ dps, dpStored dp ∈ upsert_dp dp dps := by
  intro dps
  induction dps with
  | nil => simp [upsert_dp]
  | cons r rest ih =>
    by_cases hr : r.driver_tgid = dp.driver_tgid
    · rw [upsert_dp, if_pos hr]
      exact List.mem_cons_self _ _
    · rw [upsert_dp, if_neg hr]
      exact List.mem_cons_of_mem _ ih

theorem upsert_dp_tg_mem (dp : DPR) (dps : List DPR) (t : Int)
    (h : t ∈ (upsert_dp dp dps).map (fun r => r.driver_tgid)) :
    t = dp.driver_tgid ∨ t ∈ dps.map (fun r => r.driver_tgid) := by
  obtain ⟨x, hx, rfl⟩ := List.mem_map.mp h
  rcases mem_upsert_dp dp dps x hx with heq | hm
  · left; rw [heq]; rfl
  · right; exact List.mem_map.mpr ⟨x, hm, rfl⟩

theorem upsert_dp_nodup (dp : DPR) :
    ∀ dps, (dps.map (fun r => r.driver_tgid)).Nodup →
      ((upsert_dp dp dps).map (fun r => r.driver_tgid)).Nodup := by
  intro dps
  induction dps with
  | nil => intro _; simp [upsert_dp]
  | cons r rest ih =>
    intro hnd
    rw [List.map_cons] at hnd
    obtain ⟨hr1, hr2⟩ := List.nodup_cons.mp hnd
    by_cases hr : r.driver_tgid = dp.driver_tgid
    · rw [upsert_dp, if_pos hr]
      rw [List.map_cons, List.nodup_cons]
      constructor
      · intro hmem
        apply hr1
        rwa [show (dpStored dp).driver_tgid = dp.driver_tgid from rfl, ← hr] at hmem
      · exact hr2
    · rw [upsert_dp, if_neg hr]
      rw [List.map_cons, List.nodup_cons]
      refine ⟨?_, ih hr2⟩
      intro hmem
      rcases upsert_dp_tg_mem dp rest _ hmem with h | h
      · exact hr h
      · exact hr1 h

theorem upsert_dp_unique (dp : DPR) :
    ∀ dps, (dps.map (fun r => r.driver_tgid)).Nodup →
      ∀ x ∈ upsert_dp dp dps, x.driver_tgid = dp.driver_tgid → x = dpStored dp := by
  intro dps
  induction dps with
  | nil =>
    intro _ x hx _
    simpa [upsert_dp] using hx
  | cons r rest ih =>
    intro hnd x hx htg
    rw [List.map_cons] at hnd
    obtain ⟨hr1, hr2⟩ := List.nodup_cons.mp hnd
    by_cases hr : r.driver_tgid = dp.driver_tgid
    · rw [upsert_dp, if_pos hr] at hx
      rcases List.mem_cons.mp hx with h | h
      · exact h
      · exact absurd (List.mem_map.mpr ⟨x, h, by rw [htg, ← hr]⟩) hr1
    · rw [upsert_dp, if_neg hr] at hx
      rcases List.mem_cons.mp hx with h | h
      · exact absurd (h ▸ htg) hr
      · exact ih hr2 x h htg

theorem clear_dp_tgids (tg : Int) :
    ∀ dps, ((clear_dp tg dps).1.map (fun r => r.driver_tgid))
      = dps.map (fun r => r.driver_tgid) := by
  intro dps
  induction dps with
  | nil => rfl
  | cons r rest ih =>
    by_cases hr : r.driver_tgid = tg
    · rw [clear_dp, if_pos hr]
      simp
    · rw [clear_dp, if_neg hr]
      simp only [List.map_cons]
      rw [ih]

theorem clear_dp_frame (tg : Int) :
    ∀ dps x, x ∈ dps → x.driver_tgid ≠ tg → x ∈ (clear_dp tg dps).1 := by
  intro dps
  induction dps with
  | nil => intro x hx; simp at hx
  | cons r rest ih =>
    intro x hx hne
    by_cases hr : r.driver_tgid = tg
    · rw [clear_dp, if_pos hr]
      rcases List.mem_cons.mp hx with h | h
      · exact absurd (h ▸ hne) (by rw [hr]; simp)
      · exact List.mem_cons_of_mem _ h
    · rw [clear_dp, if_neg hr]
      rcases List.mem_cons.mp hx with h | h
      · exact h ▸ List.mem_cons_self _ _
      · exact List.mem_cons_of_mem _ (ih x h hne)

theorem clear_dp_cleared (tg : Int) :
    ∀ dps, (clear_dp tg dps).2 = []
      ∨ ∃ dp0 ∈ dps, dp0.driver_tgid = tg ∧ (clear_dp tg dps).2 = dp0.passengers := by
  intro dps
  induction dps with
  | nil => left; rfl
  | cons r rest ih =>
    by_cases hr : r.driver_tgid = tg
    · right
      exact ⟨r, List.mem_cons_self _ _, hr, by rw [clear_dp, if_pos hr]⟩
    · rw [clear_dp, if_neg hr]
      rcases ih with h | ⟨dp0, h1, h2, h3⟩
      · left; exact h
      · right; exact ⟨dp0, List.mem_cons_of_mem _ h1, h2, h3⟩

theorem clear_dp_tg_empty (tg : Int) :
    ∀ dps, (dps.map (fun r => r.driver_tgid)).Nodup →
      ∀ x ∈ (clear_dp tg dps).1, x.driver_tgid = tg → x.passengers = [] := by
  intro dps
  induction dps with
  | nil => intro _ x hx; simp [clear_dp] at hx
  | cons r rest ih =>
    intro hnd x hx htg
    rw [List.map_cons] at hnd
    obtain ⟨hr1, hr2⟩ := List.nodup_cons.mp hnd
    by_cases hr : r.driver_tgid = tg
    · rw [clear_dp, if_pos hr] at hx
      rcases List.mem_cons.mp hx with h | h
      · rw [h]
      · exact absurd (List.mem_map.mpr ⟨x, h, by rw [htg, hr]⟩) hr1
    · rw [clear_dp, if_neg hr] at hx
      rcases List.mem_cons.mp hx with h | h
      · exact absurd (h ▸ htg) hr
      · exact ih hr2 x h htg

theorem eraseIdx_findIdx_norm (key : String) :
    ∀ (ps : List String) (j : Nat),
      ps.findIdx? (fun p => normalize_text p == key) = some j →
      (∀ q ∈ ps.eraseIdx j, q ∈ ps)
      ∧ ((ps.map normalize_text).Nodup →
          ∀ q ∈ ps.eraseIdx j, normalize_text q ≠ key) := by
  intro ps
  induction ps with
  | nil => intro j h; simp [List.findIdx?_nil] at h
  | cons a t ih =>
    intro j h
    rw [List.findIdx?_cons] at h
    by_cases ha : (normalize_text a == key) = true
    · rw [if_pos ha] at h
      injection h with h0
      subst h0
      constructor
      · intro q hq
        exact List.mem_cons_of_mem _ hq
      · intro hnd q hq hc
        rw [List.map_cons] at hnd
        have hka : normalize_text a = key := by simpa using ha
        exact (List.nodup_cons.mp hnd).1
          (List.mem_map.mpr ⟨q, hq, by rw [hc, hka]⟩)
    · rw [if_neg ha, List.findIdx?_succ] at h
      obtain ⟨j', hj', rfl⟩ := Option.map_eq_some'.mp h
      obtain ⟨ih1, ih2⟩ := ih j' hj'
      constructor
      · intro q hq
        rw [show (a :: t).eraseIdx (j' + 1) = a :: t.eraseIdx j' from rfl] at hq
        rcases List.mem_cons.mp hq with hh | hh
        · exact hh ▸ List.mem_cons_self _ _
        · exact List.mem_cons_of_mem _ (ih1 q hh)
      · intro hnd q hq
        rw [List.map_cons] at hnd
        rw [show (a :: t).eraseIdx (j' + 1) = a :: t.eraseIdx j' from rfl] at hq
        rcases List.mem_cons.mp hq with hh | hh
        · rw [hh]
          simpa using ha
        · exact ih2 (List.nodup_cons.mp hnd).2 q hh

theorem mergedList_mem (ex new : List String) (x : String)
    (hx : x ∈ mergedList ex new) : x ∈ ex ∨ x ∈ new := by
  rcases List.mem_append.mp hx with h | h
  · exact Or.inl h
  · exact Or.inr (dedupeNorm_subset _ _ _ h)

theorem mergedList_nodup (ex new : List String)
    (hex : (ex.map normalize_text).Nodup) :
    ((mergedList ex new).map normalize_text).Nodup := by
  rw [mergedList, List.map_append]
  refine List.Nodup.append hex (dedupeNorm_props new (ex.map normalize_text)).1 ?_
  intro a ha hb
  obtain ⟨x, hx, rfl⟩ := List.mem_map.mp hb
  exact (dedupeNorm_props new (ex.map normalize_text)).2 x hx ha

theorem clear_dp_mem2 (tg : Int) :
    ∀ dps x, x ∈ (clear_dp tg dps).1 → x ∈ dps
      ∨ ∃ dp0 ∈ dps, dp0.driver_tgid = tg ∧ x = { dp0 with passengers := [] } := by
  intro dps
  induction dps with
  | nil => intro x hx; simp [clear_dp] at hx
  | cons r rest ih =>
    intro x hx
    by_cases hr : r.driver_tgid = tg
    · rw [clear_dp, if_pos hr] at hx
      rcases List.mem_cons.mp hx with h | h
      · exact Or.inr ⟨r, List.mem_cons_self _ _, hr, h⟩
      · exact Or.inl (List.mem_cons_of_mem _ h)
    · rw [clear_dp, if_neg hr] at hx
      rcases List.mem_cons.mp hx with h | h
      · exact Or.inl (h ▸ List.mem_cons_self _ _)
      · rcases ih x h with h2 | ⟨dp0, hm, ht, he⟩
        · exact Or.inl (List.mem_cons_of_mem _ h2)
        · exact Or.inr ⟨dp0, List.mem_cons_of_mem _ hm, ht, he⟩

theorem assign_preserves (drivers : List DriverR) (simFn : String → List String)
    (hdw : ∀ d ∈ drivers, d.tg_id ≠ 0) (s : AState) (tg : Int)
    (raw : List String) (hInv : AInv drivers s) :
    AInv drivers (assignStep drivers simFn s tg raw) := by
  cases hgd : get_driver drivers tg with
  | none =>
    have hstep : assignStep drivers simFn s tg raw = s := by simp [assignStep, hgd]
    rw [hstep]; exact hInv
  | some driver =>
    obtain ⟨hdmem, hdtg⟩ := get_driver_mem drivers tg driver hgd
    have hdnz : driver.tg_id ≠ 0 := hdw driver hdmem
    by_cases h1 : uniqueNamesOf raw = []
    · have hstep : assignStep drivers simFn s tg raw = s := by
        simp [assignStep, hgd, h1]
      rw [hstep]; exact hInv
    · by_cases h2 : MAX_PASSENGERS < (uniqueNamesOf raw).length
      · have hstep : assignStep drivers simFn s tg raw = s := by
          simp [assignStep, hgd, h1, h2]
        rw [hstep]; exact hInv
      · by_cases h3 : (validate_passengers simFn drivers s.employees driver.tg_id
            driver.shift (uniqueNamesOf raw)).2 ≠ []
        · have hstep : assignStep drivers simFn s tg raw = s := by
            simp [assignStep, hgd, h1, h2, h3]
          rw [hstep]; exact hInv
        · by_cases h4 : MAX_PASSENGERS < (mergedOf s tg raw).length
          · have hstep : assignStep drivers simFn s tg raw = s := by
              simp [assignStep, hgd, h1, h2, h3, h4]
            rw [hstep]; exact hInv
          · have hstep : assignStep drivers simFn s tg raw
                = ⟨update_employee_driver driver.name driver.name driver.tg_id
                    ((uniqueNamesOf raw).foldl
                      (fun acc n => update_employee_driver n driver.name driver.tg_id acc)
                      s.employees),
                   upsert_dp
                     ⟨driver.name, driver.tg_id, driver.phone, driver.shift,
                       mergedOf s tg raw⟩ s.dps⟩ := by
              simp [assignStep, hgd, h1, h2, h3, h4]
            rw [hstep]
            -- candidate facts from validation success
            have hval : (validate_passengers simFn drivers s.employees driver.tg_id
                driver.shift (uniqueNamesOf raw)).2 = [] := not_ne_iff.mp h3
            have hallok := validate_errors_nil simFn drivers s.employees driver.tg_id
              driver.shift (uniqueNamesOf raw) hval
            have hcand : ∀ n ∈ uniqueNamesOf raw, ∃ e ∈ s.employees,
                normalize_text e.name = normalize_text n
                ∧ tgidClaimed e.driver_tgid driver.tg_id = false := by
              intro n hn
              obtain ⟨e, he⟩ := hallok n hn
              obtain ⟨hlook, hclaim⟩ := checkOne_ok_lookup _ _ _ _ _ _ _ he
              obtain ⟨hmem, -, hkey⟩ := empMapLookup_spec _ _ _ hlook
              exact ⟨e, hmem, hkey, hclaim⟩
            -- conflict-freedom for non-driver-named candidates
            have hCF : ∀ n ∈ uniqueNamesOf raw, normalize_text n ∉ dNorms drivers →
                ∀ dp2 ∈ s.dps, normalize_text n ∈ paxNorms dp2 →
                  dp2.driver_tgid = tg := by
              intro n hn hnd dp2 hdp2 hpn
              obtain ⟨p2, hp2, hp2n⟩ := List.mem_map.mp hpn
              obtain ⟨e2, he2, he2n, he2ref⟩ := hInv.backref dp2 hdp2 p2 hp2
                (by rw [hp2n]; exact hnd)
              obtain ⟨e, hem, hekey, heclaim⟩ := hcand n hn
              have heq : e2 = e := List.inj_on_of_nodup_map hInv.empNodup he2 hem
                (by rw [he2n, hp2n, hekey])
              rw [heq] at he2ref
              rcases (tgidClaimed_false_iff _ _).mp heclaim with h | h | h
              · rw [he2ref] at h; cases h
              · rw [he2ref] at h
                injection h with h
                exact absurd h (hInv.dpTgNZ dp2 hdp2)
              · rw [he2ref] at h
                injection h with h
                rw [h, hdtg]
            -- facts about the existing list and the merge
            have hexcase : existingOf s tg = []
                ∨ ∃ dpOld ∈ s.dps, dpOld.driver_tgid = tg
                    ∧ existingOf s tg = dpOld.passengers := by
              cases hdpx : get_dp s.dps tg with
              | none => left; simp [existingOf, hdpx]
              | some dpOld =>
                right
                exact ⟨dpOld, (get_dp_mem _ _ _ hdpx).1, (get_dp_mem _ _ _ hdpx).2,
                  by simp [existingOf, hdpx]⟩
            have hExNodup : ((existingOf s tg).map normalize_text).Nodup := by
              rcases hexcase with h | ⟨dpOld, hm, -, he⟩
              · rw [h]; simp
              · rw [he]; exact hInv.paxNodup dpOld hm
            have hExNE : ∀ p ∈ existingOf s tg, p ≠ "" := by
              rcases hexcase with h | ⟨dpOld, hm, -, he⟩
              · rw [h]; intro p hp; simp at hp
              · rw [he]; exact hInv.paxNE dpOld hm
            have hMrgMem : ∀ p ∈ mergedOf s tg raw,
                p ∈ existingOf s tg ∨ p ∈ uniqueNamesOf raw :=
              fun p hp => mergedList_mem _ _ p hp
            have hMrgNodup : ((mergedOf s tg raw).map normalize_text).Nodup :=
              mergedList_nodup _ _ hExNodup
            have hMrgNE : ∀ p ∈ mergedOf s tg raw, p ≠ "" := by
              intro p hp
              rcases hMrgMem p hp with h | h
              · exact hExNE p h
              · exact (uniqueNamesOf_mem raw p h).2
            have hMrgLen : (mergedOf s tg raw).length ≤ 4 := by
              have := Nat.not_lt.mp h4
              simpa [MAX_PASSENGERS] using this
            have hstored : dpStored ⟨driver.name, driver.tg_id, driver.phone,
                driver.shift, mergedOf s tg raw⟩
                = ⟨driver.name, driver.tg_id, driver.phone, driver.shift,
                    mergedOf s tg raw⟩ :=
              dpStored_id _ hMrgLen hMrgNE
            -- fold over the employee updates
            have hexists : ∀ n ∈ uniqueNamesOf raw, ∃ e ∈ s.employees,
                normalize_text e.name = normalize_text n := by
              intro n hn
              obtain ⟨e, hem, hkey, -⟩ := hcand n hn
              exact ⟨e, hem, hkey⟩
            obtain ⟨hfA, hfB, hfC⟩ := updFold_props driver.name driver.tg_id
              (uniqueNamesOf raw) s.employees hInv.empNodup
              (uniqueNamesOf_nodup raw) hexists
            have hdrvnorm : normalize_text driver.name ∈ dNorms drivers :=
              List.mem_map.mpr ⟨driver, hdmem, rfl⟩
            -- abbreviations
            set emps1 := (uniqueNamesOf raw).foldl
              (fun acc n => update_employee_driver n driver.name driver.tg_id acc)
              s.employees with hemps1
            set emps2 := update_employee_driver driver.name driver.name
              driver.tg_id emps1 with hemps2
            set dpNew : DPR := ⟨driver.name, driver.tg_id, driver.phone,
              driver.shift, mergedOf s tg raw⟩ with hdpNew
            have hNewTg : dpNew.driver_tgid = tg := hdtg
            have hselfname : ∀ e' ∈ emps1,
                normalize_text e'.name ∉ dNorms drivers →
                e' ∈ emps2 := by
              intro e' he' hnd
              exact upd_frame driver.name driver.name driver.tg_id emps1 e' he'
                (fun hc => hnd (hc ▸ hdrvnorm))
            refine ⟨?_, ?_, ?_, ?_, ?_, ?_, ?_, ?_⟩
            · -- empNodup
              show (normNamesE emps2).Nodup
              by_cases hself : ∃ e ∈ emps1,
                  normalize_text e.name = normalize_text driver.name
              · rw [hemps2, upd_names_of_match driver.name driver.name
                  driver.tg_id emps1 hself, hfA]
                exact hInv.empNodup
              · push_neg at hself
                rw [hemps2, upd_of_no_match driver.name driver.name driver.tg_id
                  emps1 (fun e he => hself e he)]
                rw [show normNamesE (emps1 ++ [newEmpRow driver.name driver.name
                  driver.tg_id]) = normNamesE emps1
                    ++ [normalize_text (newEmpRow driver.name driver.name
                      driver.tg_id).name] from by simp [normNamesE]]
                rw [List.nodup_append]
                refine ⟨by rw [hfA]; exact hInv.empNodup, by simp, ?_⟩
                intro a ha hb
                simp only [List.mem_singleton] at hb
                obtain ⟨e1, he1, hne1⟩ := List.mem_map.mp ha
                apply hself e1 he1
                rw [hne1, hb]
                show normalize_text (pyStripS driver.name) = normalize_text driver.name
                exact normalize_pyStripS driver.name
            · -- dpNodup
              exact upsert_dp_nodup dpNew s.dps hInv.dpNodup
            · -- dpTgNZ
              intro dp hdp
              rcases mem_upsert_dp dpNew s.dps dp hdp with heq | hm
              · rw [heq, hstored]
                exact hdnz
              · exact hInv.dpTgNZ dp hm
            · -- paxNodup
              intro dp hdp
              rcases mem_upsert_dp dpNew s.dps dp hdp with heq | hm
              · rw [heq, hstored]
                exact hMrgNodup
              · exact hInv.paxNodup dp hm
            · -- paxLen
              intro dp hdp
              rcases mem_upsert_dp dpNew s.dps dp hdp with heq | hm
              · rw [heq, hstored]
                exact hMrgLen
              · exact hInv.paxLen dp hm
            · -- paxNE
              intro dp hdp
              rcases mem_upsert_dp dpNew s.dps dp hdp with heq | hm
              · rw [heq, hstored]
                exact hMrgNE
              · exact hInv.paxNE dp hm
            · -- excl
              intro dp1 h1m p1 hp1 hnd1 dp2 h2m hp2n
              by_cases c1 : dp1.driver_tgid = tg
              · have e1 : dp1 = dpNew := by
                  have := upsert_dp_unique dpNew s.dps hInv.dpNodup dp1 h1m
                    (by rw [c1, hNewTg])
                  rw [this, hstored]
                by_cases c2 : dp2.driver_tgid = tg
                · have e2 : dp2 = dpNew := by
                    have := upsert_dp_unique dpNew s.dps hInv.dpNodup dp2 h2m
                      (by rw [c2, hNewTg])
                    rw [this, hstored]
                  rw [e1, e2]
                · have h2old : dp2 ∈ s.dps := by
                    rcases mem_upsert_dp dpNew s.dps dp2 h2m with heq | hm
                    · exact absurd (by rw [heq, hstored]; exact hNewTg) c2
                    · exact hm
                  have hp1' : p1 ∈ mergedOf s tg raw := by
                    rw [e1] at hp1; exact hp1
                  rcases hMrgMem p1 hp1' with hex | hns
                  · rcases hexcase with hnil | ⟨dpOld, hOm, hOt, hOe⟩
                    · rw [hnil] at hex; cases hex
                    · have hp1old : p1 ∈ dpOld.passengers := by
                        rw [← hOe]; exact hex
                      have h5 := hInv.excl dpOld hOm p1 hp1old hnd1 dp2 h2old hp2n
                      exact absurd (by rw [← h5]; exact hOt) c2
                  · exact absurd (hCF p1 hns hnd1 dp2 h2old hp2n) c2
              · have h1old : dp1 ∈ s.dps := by
                  rcases mem_upsert_dp dpNew s.dps dp1 h1m with heq | hm
                  · exact absurd (by rw [heq, hstored]; exact hNewTg) c1
                  · exact hm
                by_cases c2 : dp2.driver_tgid = tg
                · have e2 : dp2 = dpNew := by
                    have := upsert_dp_unique dpNew s.dps hInv.dpNodup dp2 h2m
                      (by rw [c2, hNewTg])
                    rw [this, hstored]
                  have hp2n' : normalize_text p1
                      ∈ (mergedOf s tg raw).map normalize_text := by
                    rw [e2] at hp2n; exact hp2n
                  obtain ⟨p2, hp2, hp2eq⟩ := List.mem_map.mp hp2n'
                  rcases hMrgMem p2 hp2 with hex | hns
                  · rcases hexcase with hnil | ⟨dpOld, hOm, hOt, hOe⟩
                    · rw [hnil] at hex; cases hex
                    · have hp2old : p2 ∈ dpOld.passengers := by
                        rw [← hOe]; exact hex
                      have hpn : normalize_text p1 ∈ paxNorms dpOld :=
                        List.mem_map.mpr ⟨p2, hp2old, hp2eq⟩
                      have h5 := hInv.excl dp1 h1old p1 hp1 hnd1 dpOld hOm hpn
                      exact absurd (by rw [h5]; exact hOt) c1
                  · have hnd2 : normalize_text p2 ∉ dNorms drivers := by
                      rw [hp2eq]; exact hnd1
                    have hpn1 : normalize_text p2 ∈ paxNorms dp1 := by
                      rw [hp2eq]
                      exact List.mem_map.mpr ⟨p1, hp1, rfl⟩
                    exact absurd (hCF p2 hns hnd2 dp1 h1old hpn1) c1
                · have h2old : dp2 ∈ s.dps := by
                    rcases mem_upsert_dp dpNew s.dps dp2 h2m with heq | hm
                    · exact absurd (by rw [heq, hstored]; exact hNewTg) c2
                    · exact hm
                  exact hInv.excl dp1 h1old p1 hp1 hnd1 dp2 h2old hp2n
            · -- backref
              intro dp hdp p hp hnd
              by_cases c : dp.driver_tgid = tg
              · have he : dp = dpNew := by
                  have := upsert_dp_unique dpNew s.dps hInv.dpNodup dp hdp
                    (by rw [c, hNewTg])
                  rw [this, hstored]
                have hp' : p ∈ mergedOf s tg raw := by rw [he] at hp; exact hp
                by_cases hin : normalize_text p
                    ∈ (uniqueNamesOf raw).map normalize_text
                · obtain ⟨n, hn, hneq⟩ := List.mem_map.mp hin
                  obtain ⟨e', he', hne', hrw', href'⟩ := hfC n hn
                  have he'2 : e' ∈ emps2 :=
                    hselfname e' he' (by rw [hne', hneq]; exact hnd)
                  refine ⟨e', he'2, by rw [hne', hneq], ?_⟩
                  rw [href', if_neg hdnz, he]
                · rcases hMrgMem p hp' with hex | hns
                  · rcases hexcase with hnil | ⟨dpOld, hOm, hOt, hOe⟩
                    · rw [hnil] at hex; cases hex
                    · have hpold : p ∈ dpOld.passengers := by
                        rw [← hOe]; exact hex
                      obtain ⟨e, hem, hen, heref⟩ := hInv.backref dpOld hOm p hpold hnd
                      have he1 : e ∈ emps1 := hfB e hem (by rw [hen]; exact hin)
                      have he2 : e ∈ emps2 :=
                        hselfname e he1 (by rw [hen]; exact hnd)
                      refine ⟨e, he2, hen, ?_⟩
                      rw [heref, hOt, he, hNewTg]
                  · exact absurd (List.mem_map.mpr ⟨p, hns, rfl⟩) hin
              · have hold : dp ∈ s.dps := by
                  rcases mem_upsert_dp dpNew s.dps dp hdp with heq | hm
                  · exact absurd (by rw [heq, hstored]; exact hNewTg) c
                  · exact hm
                obtain ⟨e, hem, hen, heref⟩ := hInv.backref dp hold p hp hnd
                have hnotin : normalize_text p
                    ∉ (uniqueNamesOf raw).map normalize_text := by
                  intro hin
                  obtain ⟨n, hn, hneq⟩ := List.mem_map.mp hin
                  have hpn : normalize_text n ∈ paxNorms dp := by
                    rw [hneq]
                    exact List.mem_map.mpr ⟨p, hp, rfl⟩
                  exact c (hCF n hn (by rw [hneq]; exact hnd) dp hold hpn)
                have he1 : e ∈ emps1 := hfB e hem (by rw [hen]; exact hnotin)
                have he2 : e ∈ emps2 := hselfname e he1 (by rw [hen]; exact hnd)
                exact ⟨e, he2, hen, heref⟩

theorem remove_preserves (drivers : List DriverR) (s : AState) (tg : Int)
    (name0 : String) (hInv : AInv drivers s) :
    AInv drivers (removeStep s tg name0) := by
  by_cases h0 : pyStripS name0 = ""
  · have hstep : removeStep s tg name0 = s := by simp [removeStep, h0]
    rw [hstep]; exact hInv
  · cases hgd : get_dp s.dps tg with
    | none =>
      have hstep : removeStep s tg name0 = s := by
        simp [removeStep, h0, remove_passenger, hgd]
      rw [hstep]; exact hInv
    | some dp0 =>
      obtain ⟨hdp0m, hdp0t⟩ := get_dp_mem _ _ _ hgd
      cases hidx : dp0.passengers.findIdx?
          (fun p => normalize_text p == normalize_text (pyStripS name0)) with
      | none =>
        have hstep : removeStep s tg name0 = s := by
          simp [removeStep, h0, remove_passenger, hgd, hidx]
        rw [hstep]; exact hInv
      | some j =>
        have hstep : removeStep s tg name0
            = ⟨clear_employee_driver (pyStripS name0) (some tg) s.employees,
               upsert_dp { dp0 with passengers := dp0.passengers.eraseIdx j }
                 s.dps⟩ := by
          simp [removeStep, h0, remove_passenger, hgd, hidx]
        rw [hstep]
        obtain ⟨her1, her2c⟩ := eraseIdx_findIdx_norm
          (normalize_text (pyStripS name0)) dp0.passengers j hidx
        have her2 := her2c (hInv.paxNodup dp0 hdp0m)
        set dpE : DPR := { dp0 with passengers := dp0.passengers.eraseIdx j }
          with hdpE
        have hEtg : dpE.driver_tgid = tg := hdp0t
        have hsub : ∀ q ∈ dpE.passengers, q ∈ dp0.passengers := her1
        have hlen : dpE.passengers.length ≤ 4 :=
          le_trans (List.Sublist.length_le (List.eraseIdx_sublist _ _))
            (hInv.paxLen dp0 hdp0m)
        have hne : ∀ p ∈ dpE.passengers, p ≠ "" :=
          fun p hp => hInv.paxNE dp0 hdp0m p (hsub p hp)
        have hstored : dpStored dpE = dpE := dpStored_id _ hlen hne
        have hEnodup : (paxNorms dpE).Nodup :=
          List.Nodup.sublist (List.Sublist.map _ (List.eraseIdx_sublist _ _))
            (hInv.paxNodup dp0 hdp0m)
        refine ⟨?_, ?_, ?_, ?_, ?_, ?_, ?_, ?_⟩
        · show (normNamesE (clear_employee_driver (pyStripS name0) (some tg)
            s.employees)).Nodup
          rw [clear_names]
          exact hInv.empNodup
        · exact upsert_dp_nodup dpE s.dps hInv.dpNodup
        · intro dp hdp
          rcases mem_upsert_dp dpE s.dps dp hdp with heq | hm
          · rw [heq, hstored]
            exact hInv.dpTgNZ dp0 hdp0m
          · exact hInv.dpTgNZ dp hm
        · intro dp hdp
          rcases mem_upsert_dp dpE s.dps dp hdp with heq | hm
          · rw [heq, hstored]
            exact hEnodup
          · exact hInv.paxNodup dp hm
        · intro dp hdp
          rcases mem_upsert_dp dpE s.dps dp hdp with heq | hm
          · rw [heq, hstored]
            exact hlen
          · exact hInv.paxLen dp hm
        · intro dp hdp
          rcases mem_upsert_dp dpE s.dps dp hdp with heq | hm
          · rw [heq, hstored]
            exact hne
          · exact hInv.paxNE dp hm
        · intro dp1 h1m p1 hp1 hnd1 dp2 h2m hp2n
          by_cases c1 : dp1.driver_tgid = tg
          · have e1 : dp1 = dpE := by
              have := upsert_dp_unique dpE s.dps hInv.dpNodup dp1 h1m
                (by rw [c1, hEtg])
              rw [this, hstored]
            by_cases c2 : dp2.driver_tgid = tg
            · have e2 : dp2 = dpE := by
                have := upsert_dp_unique dpE s.dps hInv.dpNodup dp2 h2m
                  (by rw [c2, hEtg])
                rw [this, hstored]
              rw [e1, e2]
            · have h2old : dp2 ∈ s.dps := by
                rcases mem_upsert_dp dpE s.dps dp2 h2m with heq | hm
                · exact absurd (by rw [heq, hstored]; exact hEtg) c2
                · exact hm
              have hp1' : p1 ∈ dpE.passengers := by rw [e1] at hp1; exact hp1
              have h5 := hInv.excl dp0 hdp0m p1 (hsub p1 hp1') hnd1 dp2 h2old hp2n
              exact absurd (by rw [← h5]; exact hdp0t) c2
          · have h1old : dp1 ∈ s.dps := by
              rcases mem_upsert_dp dpE s.dps dp1 h1m with heq | hm
              · exact absurd (by rw [heq, hstored]; exact hEtg) c1
              · exact hm
            by_cases c2 : dp2.driver_tgid = tg
            · have e2 : dp2 = dpE := by
                have := upsert_dp_unique dpE s.dps hInv.dpNodup dp2 h2m
                  (by rw [c2, hEtg])
                rw [this, hstored]
              have hp2n' : normalize_text p1 ∈ paxNorms dpE := by
                rw [e2] at hp2n; exact hp2n
              obtain ⟨p2, hp2E, heq2⟩ := List.mem_map.mp hp2n'
              have hpn : normalize_text p1 ∈ paxNorms dp0 :=
                List.mem_map.mpr ⟨p2, hsub p2 hp2E, heq2⟩
              have h5 := hInv.excl dp1 h1old p1 hp1 hnd1 dp0 hdp0m hpn
              exact absurd (by rw [h5]; exact hdp0t) c1
            · have h2old : dp2 ∈ s.dps := by
                rcases mem_upsert_dp dpE s.dps dp2 h2m with heq | hm
                · exact absurd (by rw [heq, hstored]; exact hEtg) c2
                · exact hm
              exact hInv.excl dp1 h1old p1 hp1 hnd1 dp2 h2old hp2n
        · intro dp hdp p hp hnd
          by_cases c : dp.driver_tgid = tg
          · have he : dp = dpE := by
              have := upsert_dp_unique dpE s.dps hInv.dpNodup dp hdp
                (by rw [c, hEtg])
              rw [this, hstored]
            have hp' : p ∈ dpE.passengers := by rw [he] at hp; exact hp
            obtain ⟨e, hem, hen, heref⟩ := hInv.backref dp0 hdp0m p (hsub p hp') hnd
            have hkeep : e ∈ clear_employee_driver (pyStripS name0) (some tg)
                s.employees :=
              clear_frame _ _ s.employees e hem (by rw [hen]; exact her2 p hp')
            refine ⟨e, hkeep, hen, ?_⟩
            rw [heref, hdp0t, he, hEtg]
          · have hold : dp ∈ s.dps := by
              rcases mem_upsert_dp dpE s.dps dp hdp with heq | hm
              · exact absurd (by rw [heq, hstored]; exact hEtg) c
              · exact hm
            obtain ⟨e, hem, hen, heref⟩ := hInv.backref dp hold p hp hnd
            have hrefne : e.driver_tgid ≠ some tg := by
              rw [heref]
              intro hcon
              injection hcon with hcon
              exact c hcon
            exact ⟨e, clear_keep_ref _ _ s.employees e hem hrefne, hen, heref⟩

theorem clear_preserves (drivers : List DriverR) (s : AState) (tg : Int)
    (hInv : AInv drivers s) : AInv drivers (clearStep s tg) := by
  have hstep : clearStep s tg
      = ⟨(clear_dp tg s.dps).2.foldl
          (fun acc p => clear_employee_driver p (some tg) acc) s.employees,
         (clear_dp tg s.dps).1⟩ := rfl
  rw [hstep]
  refine ⟨?_, ?_, ?_, ?_, ?_, ?_, ?_, ?_⟩
  · show (normNamesE ((clear_dp tg s.dps).2.foldl
      (fun acc p => clear_employee_driver p (some tg) acc) s.employees)).Nodup
    rw [clearFold_names]
    exact hInv.empNodup
  · show (((clear_dp tg s.dps).1).map (fun r => r.driver_tgid)).Nodup
    rw [clear_dp_tgids]
    exact hInv.dpNodup
  · intro dp hdp
    rcases clear_dp_mem2 tg s.dps dp hdp with hm | ⟨dp0, h0m, h0t, he⟩
    · exact hInv.dpTgNZ dp hm
    · rw [he]
      exact hInv.dpTgNZ dp0 h0m
  · intro dp hdp
    rcases clear_dp_mem2 tg s.dps dp hdp with hm | ⟨dp0, h0m, h0t, he⟩
    · exact hInv.paxNodup dp hm
    · rw [he]
      simp [paxNorms]
  · intro dp hdp
    rcases clear_dp_mem2 tg s.dps dp hdp with hm | ⟨dp0, h0m, h0t, he⟩
    · exact hInv.paxLen dp hm
    · rw [he]
      simp
  · intro dp hdp
    rcases clear_dp_mem2 tg s.dps dp hdp with hm | ⟨dp0, h0m, h0t, he⟩
    · exact hInv.paxNE dp hm
    · rw [he]
      intro p hp
      simp at hp
  · intro dp1 h1m p1 hp1 hnd1 dp2 h2m hp2n
    have h1old : dp1 ∈ s.dps := by
      rcases clear_dp_mem2 tg s.dps dp1 h1m with hm | ⟨dp0, h0m, h0t, he⟩
      · exact hm
      · rw [he] at hp1
        simp at hp1
    have h2old : dp2 ∈ s.dps := by
      rcases clear_dp_mem2 tg s.dps dp2 h2m with hm | ⟨dp0, h0m, h0t, he⟩
      · exact hm
      · rw [he] at hp2n
        simp [paxNorms] at hp2n
    exact hInv.excl dp1 h1old p1 hp1 hnd1 dp2 h2old hp2n
  · intro dp hdp p hp hnd
    have hold : dp ∈ s.dps := by
      rcases clear_dp_mem2 tg s.dps dp hdp with hm | ⟨dp0, h0m, h0t, he⟩
      · exact hm
      · rw [he] at hp
        simp at hp
    have hne : dp.driver_tgid ≠ tg := by
      intro hc
      have hempty := clear_dp_tg_empty tg s.dps hInv.dpNodup dp hdp hc
      rw [hempty] at hp
      simp at hp
    obtain ⟨e, hem, hen, heref⟩ := hInv.backref dp hold p hp hnd
    have hrefne : e.driver_tgid ≠ some tg := by
      rw [heref]
      intro hcon
      injection hcon with hcon
      exact hne hcon
    exact ⟨e, clearFold_keep_ref tg (clear_dp tg s.dps).2 s.employees e hem hrefne,
      hen, heref⟩

theorem applyOps_preserves (drivers : List DriverR) (simFn : String → List String)
    (hdw : ∀ d ∈ drivers, d.tg_id ≠ 0) :
    ∀ ops s, AInv drivers s → AInv drivers (applyOps drivers simFn s ops) := by
  intro ops
  induction ops with
  | nil => intro s h; exact h
  | cons op rest ih =>
    intro s h
    have hfold : applyOps drivers simFn s (op :: rest)
        = applyOps drivers simFn (applyOp drivers simFn s op) rest := rfl
    rw [hfold]
    apply ih
    cases op with
    | assign tg raw => exact assign_preserves drivers simFn hdw s tg raw h
    | remove tg name => exact remove_preserves drivers s tg name h
    | clear tg => exact clear_preserves drivers s tg h

/-- C1 counterexample: two concrete operation sequences start from states
satisfying the claim's hypotheses — the exclusivity invariant holds and
every listed passenger's employee driver-reference equals its driver — yet
end with one normalized employee name present in two different drivers'
passenger lists.  The first trace exploits the self-assignment of
`passengers_input` clobbering the driver-reference of a driver who is
another driver's passenger; the second exploits duplicate employee rows
(validation reads the last matching row, the write lands on the first). -/
theorem C1_counterexample :
    (∀ dp1 ∈ cxState1.dps, ∀ p1 ∈ dp1.passengers, ∀ dp2 ∈ cxState1.dps,
        normalize_text p1 ∈ paxNorms dp2 → dp1 = dp2)
    ∧ (∀ dp ∈ cxState1.dps, ∀ p ∈ dp.passengers,
        ∃ e ∈ cxState1.employees, normalize_text e.name = normalize_text p
          ∧ e.driver_tgid = some dp.driver_tgid)
    ∧ (∃ dp1 ∈ cxFinal1.dps, ∃ dp2 ∈ cxFinal1.dps, dp1 ≠ dp2
        ∧ "alice" ∈ paxNorms dp1 ∧ "alice" ∈ paxNorms dp2)
    ∧ (∀ dp1 ∈ cxState2.dps, ∀ p1 ∈ dp1.passengers, ∀ dp2 ∈ cxState2.dps,
        normalize_text p1 ∈ paxNorms dp2 → dp1 = dp2)
    ∧ (∀ dp ∈ cxState2.dps, ∀ p ∈ dp.passengers,
        ∃ e ∈ cxState2.employees, normalize_text e.name = normalize_text p
          ∧ e.driver_tgid = some dp.driver_tgid)
    ∧ (∃ dp1 ∈ cxFinal2.dps, ∃ dp2 ∈ cxFinal2.dps, dp1 ≠ dp2
        ∧ "bob" ∈ paxNorms dp1 ∧ "bob" ∈ paxNorms dp2) := by
  decide

/-- C1 amended: exclusivity holds for every employee whose normalized name
is not a driver's normalized name.  Under the protocol invariant `AInv` —
the claim's hypotheses (exclusivity and passenger-to-driver back-reference
consistency) strengthened with the row well-formedness conditions the two
counterexample traces show to be necessary (normalized employee names
unique, driver ids unique and nonzero, per-row passenger lists
duplicate-free, nonempty and within the four slots) — any sequence of
assign, remove and clear operations preserves the invariant, and in the
resulting state any passenger name that is not a driver's name appears in
at most one driver's passenger list. -/
theorem C1_exclusivity_invariant (drivers : List DriverR)
    (simFn : String → List String) (hdw : ∀ d ∈ drivers, d.tg_id ≠ 0)
    (s0 : AState) (hInv : AInv drivers s0) (ops : List AOp) :
    AInv drivers (applyOps drivers simFn s0 ops)
    ∧ ∀ n : String, n ∉ dNorms drivers →
        ∀ dp1 ∈ (applyOps drivers simFn s0 ops).dps,
          ∀ dp2 ∈ (applyOps drivers simFn s0 ops).dps,
            n ∈ paxNorms dp1 → n ∈ paxNorms dp2 → dp1 = dp2 := by
  have hfin := applyOps_preserves drivers simFn hdw ops s0 hInv
  refine ⟨hfin, ?_⟩
  intro n hnd dp1 h1 dp2 h2 hn1 hn2
  obtain ⟨p1, hp1, hp1n⟩ := List.mem_map.mp hn1
  exact hfin.excl dp1 h1 p1 hp1 (by rw [hp1n]; exact hnd) dp2 h2
    (by rw [hp1n]; exact hn2)

/-- Witness for C1's amended theorem: a one-driver table and an initial
state with one unassigned employee (which satisfies every invariant field)
still satisfy the protocol invariant after an assign operation. -/
theorem C1_exclusivity_invariant_witness :
    AInv [⟨"D", 7, "", .day⟩]
      (applyOps [⟨"D", 7, "", .day⟩] (fun _ => [])
        ⟨[⟨"Z", .day, "", none⟩], []⟩ [.assign 7 ["Z"]]) :=
  (C1_exclusivity_invariant [⟨"D", 7, "", .day⟩] (fun _ => [])
    (by decide) ⟨[⟨"Z", .day, "", none⟩], []⟩
    ⟨by decide, by decide, by decide, by decide, by decide, by decide,
      by decide, by decide⟩
    [.assign 7 ["Z"]]).1
